import Mathlib

/-!
Shallow embedding of the bounded FIFO queue variants of this repository
(src/fifo1 through src/fifo6a) and proofs of the specification claims
about them.  Rust usize values are modelled as Nat; the turn-based
variant (fifo6a) uses explicitly wrapping arithmetic, modelled by
reduction modulo 2^64.  A Rust function that can panic, or whose retry
loop can fail to return, is modelled with an Option-valued result where
none stands for the aborted or diverging call.
-/

/-- Number of values of a 64-bit usize, that is 2^64. -/
def W : Nat := 18446744073709551616

/-- Threshold at which a 64-bit unsigned value reinterpreted as isize is
negative, that is 2^63. -/
def HALF : Nat := 9223372036854775808

/-- Rust usize::wrapping_sub, for operands below 2^64. -/
def wsub (a b : Nat) : Nat := (a + (W - b % W)) % W

/-- Rust usize::is_power_of_two for a 64-bit usize: the value equals 2^k
for some k below 64.  The standard library function is external to the
repository; this is its documented meaning on the usize range. -/
def isPow2 (n : Nat) : Bool := (List.range 64).any (fun k => n == 2 ^ k)

theorem isPow2_iff (n : Nat) : isPow2 n = true ↔ ∃ k, k < 64 ∧ n = 2 ^ k := by
  simp [isPow2, List.mem_range]

/-- Two numbers inside a window shorter than the modulus and with equal
residues are equal. -/
theorem mod_eq_window {a b c : Nat} (hc : 0 < c) (hab : a ≤ b) (hlt : b < a + c)
    (hm : a % c = b % c) : a = b := by
  have hdvd : c ∣ b - a := (Nat.modEq_iff_dvd' hab).1 hm
  rcases Nat.eq_zero_or_pos (b - a) with h0 | hpos
  · omega
  · have := Nat.le_of_dvd hpos hdvd
    omega

/-- Two distinct numbers inside a window shorter than the modulus have
distinct residues. -/
theorem mod_ne_window {a b c : Nat} (hc : 0 < c) (hab : a < b) (hlt : b < a + c) :
    a % c ≠ b % c :=
  fun hm => absurd (mod_eq_window hc (Nat.le_of_lt hab) hlt hm) (Nat.ne_of_lt hab)

/-- The smallest counter value t with T ≤ t and t % cap = j; used to state
the slot-turn invariant of the turn-based queue. -/
def nextTurn (T cap j : Nat) : Nat := T + ((cap + j - T % cap) % cap)

theorem nextTurn_ge (T cap j : Nat) : T ≤ nextTurn T cap j := Nat.le_add_right _ _

theorem nextTurn_lt {cap : Nat} (T j : Nat) (hc : 0 < cap) : nextTurn T cap j < T + cap := by
  have : (cap + j - T % cap) % cap < cap := Nat.mod_lt _ hc
  unfold nextTurn
  omega

theorem nextTurn_mod {cap j : Nat} (T : Nat) (hc : 0 < cap) (hj : j < cap) :
    nextTurn T cap j % cap = j := by
  have hr : T % cap < cap := Nat.mod_lt _ hc
  have hdm := Nat.div_add_mod T cap
  rcases Nat.lt_or_ge j (T % cap) with hlt | hge
  · have h2 : (cap + j - T % cap) % cap = cap + j - T % cap := Nat.mod_eq_of_lt (by omega)
    unfold nextTurn
    rw [h2]
    have hmul : cap * (T / cap + 1) = cap * (T / cap) + cap := by ring
    have h3 : T + (cap + j - T % cap) = cap * (T / cap + 1) + j := by omega
    rw [h3, Nat.mul_add_mod]
    exact Nat.mod_eq_of_lt hj
  · have h1 : cap + j - T % cap = (j - T % cap) + cap := by omega
    have h2 : (cap + j - T % cap) % cap = j - T % cap := by
      rw [h1, Nat.add_mod_right]
      exact Nat.mod_eq_of_lt (by omega)
    unfold nextTurn
    rw [h2]
    have h3 : T + (j - T % cap) = cap * (T / cap) + j := by omega
    rw [h3, Nat.mul_add_mod]
    exact Nat.mod_eq_of_lt hj

theorem nextTurn_unique {T cap j t : Nat} (hc : 0 < cap) (hj : j < cap)
    (h1 : T ≤ t) (h2 : t < T + cap) (h3 : t % cap = j) : t = nextTurn T cap j := by
  rcases Nat.le_total t (nextTurn T cap j) with hle | hle
  · exact mod_eq_window hc hle (by have := nextTurn_lt T j hc; omega)
      (by rw [h3, nextTurn_mod T hc hj])
  · exact (mod_eq_window hc hle (by have := nextTurn_ge T cap j; omega)
      (by rw [h3, nextTurn_mod T hc hj])).symm

/-- A single-threaded queue call: either push a value or pop. -/
inductive Op (α : Type u) where
  | push (v : α) : Op α
  | pop : Op α

/-- Run a sequence of interleaved push/pop calls against a queue whose push
returns a success flag and whose pop returns an optional item; the outer
Option models a call that aborts or never returns.  Produces the final
state, the list of values returned by successful pops (in order), and the
list of successfully pushed values (in push order). -/
def runQ {α : Type u} {σ : Type v} (pushF : α → σ → Option (Bool × σ))
    (popF : σ → Option (Option α × σ)) :
    σ → List (Op α) → Option (σ × List α × List α)
  | s, [] => some (s, [], [])
  | s, Op.push v :: ops =>
    match pushF v s with
    | none => none
    | some (b, s1) =>
      match runQ pushF popF s1 ops with
      | none => none
      | some (sf, popped, pushedOk) => some (sf, popped, if b then v :: pushedOk else pushedOk)
  | s, Op.pop :: ops =>
    match popF s with
    | none => none
    | some (r, s1) =>
      match runQ pushF popF s1 ops with
      | none => none
      | some (sf, popped, pushedOk) =>
        some (sf, (match r with | some x => x :: popped | none => popped), pushedOk)

/-- A queue implementation together with an abstraction relation R between
machine states and the list of currently pending items (oldest first), and
the four single-step facts each variant is proved to satisfy in the
single-threaded model: a push succeeds and appends when fewer than cap
items are pending, a push on a full queue returns false with the state
untouched, a pop removes and returns the oldest pending item, and a pop on
an empty queue returns none with the state untouched. -/
structure QueueSim (α : Type u) (σ : Type v) where
  pushF : α → σ → Option (Bool × σ)
  popF : σ → Option (Option α × σ)
  R : σ → List α → Prop
  cap : Nat
  len_le : ∀ s l, R s l → l.length ≤ cap
  push_ok : ∀ s l v, R s l → l.length < cap → ∃ s1, pushF v s = some (true, s1) ∧ R s1 (l ++ [v])
  push_full : ∀ s l v, R s l → l.length = cap → pushF v s = some (false, s)
  pop_ok : ∀ s x l, R s (x :: l) → ∃ s1, popF s = some (some x, s1) ∧ R s1 l
  pop_empty : ∀ s, R s [] → popF s = some (none, s)

theorem runQ_sim {α : Type u} {σ : Type v} (Q : QueueSim α σ) :
    ∀ (ops : List (Op α)) (s : σ) (l : List α), Q.R s l →
    ∃ sf popped pushedOk lf, runQ Q.pushF Q.popF s ops = some (sf, popped, pushedOk) ∧
      Q.R sf lf ∧ l ++ pushedOk = popped ++ lf := by
  intro ops
  induction ops with
  | nil => exact fun s l hR => ⟨s, [], [], l, rfl, hR, by simp⟩
  | cons op ops ih =>
    intro s l hR
    cases op with
    | push v =>
      rcases Nat.lt_or_ge l.length Q.cap with hlt | hge
      · obtain ⟨s1, hpush, hR1⟩ := Q.push_ok s l v hR hlt
        obtain ⟨sf, popped, pushedOk, lf, hrun, hRf, heq⟩ := ih s1 (l ++ [v]) hR1
        refine ⟨sf, popped, v :: pushedOk, lf, ?_, hRf, ?_⟩
        · simp [runQ, hpush, hrun]
        · rw [← heq]
          simp
      · have hel : l.length = Q.cap := Nat.le_antisymm (Q.len_le s l hR) hge
        have hpush := Q.push_full s l v hR hel
        obtain ⟨sf, popped, pushedOk, lf, hrun, hRf, heq⟩ := ih s l hR
        exact ⟨sf, popped, pushedOk, lf, by simp [runQ, hpush, hrun], hRf, heq⟩
    | pop =>
      cases l with
      | nil =>
        have hpop := Q.pop_empty s hR
        obtain ⟨sf, popped, pushedOk, lf, hrun, hRf, heq⟩ := ih s [] hR
        exact ⟨sf, popped, pushedOk, lf, by simp [runQ, hpop, hrun], hRf, heq⟩
      | cons x l2 =>
        obtain ⟨s1, hpop, hR1⟩ := Q.pop_ok s x l2 hR
        obtain ⟨sf, popped, pushedOk, lf, hrun, hRf, heq⟩ := ih s1 l2 hR1
        refine ⟨sf, x :: popped, pushedOk, lf, by simp [runQ, hpop, hrun], hRf, ?_⟩
        simp [heq]

theorem runQ_fifo {α : Type u} {σ : Type v} (Q : QueueSim α σ) (ops : List (Op α)) (s0 : σ)
    (h0 : Q.R s0 []) :
    ∃ sf popped pushedOk, runQ Q.pushF Q.popF s0 ops = some (sf, popped, pushedOk) ∧
      ∃ rest, pushedOk = popped ++ rest := by
  obtain ⟨sf, popped, pushedOk, lf, hrun, _, heq⟩ := runQ_sim Q ops s0 [] h0
  exact ⟨sf, popped, pushedOk, hrun, lf, by simpa using heq⟩

theorem runQ_pushes {α : Type u} {σ : Type v} (Q : QueueSim α σ) :
    ∀ (vs : List α) (s : σ) (l : List α), Q.R s l → l.length + vs.length ≤ Q.cap →
    ∃ sf, runQ Q.pushF Q.popF s (vs.map Op.push) = some (sf, [], vs) ∧ Q.R sf (l ++ vs) := by
  intro vs
  induction vs with
  | nil => exact fun s l hR _ => ⟨s, rfl, by simpa using hR⟩
  | cons v vs ih =>
    intro s l hR hlen
    obtain ⟨s1, hpush, hR1⟩ := Q.push_ok s l v hR (by simp at hlen; omega)
    obtain ⟨sf, hrun, hRf⟩ := ih s1 (l ++ [v]) hR1 (by simp at hlen ⊢; omega)
    refine ⟨sf, ?_, by simpa using hRf⟩
    simp [runQ, hpush, hrun]

/-- Writing the slot one past the pending window of a ring leaves the
window's contents unchanged. -/
theorem ring_window_push {β : Type u} (ring : List β) (cap popc len : Nat) (x : β)
    (hlen : len < cap) :
    ∀ i, i < len →
      (ring.set ((popc + len) % cap) x)[(popc + i) % cap]? = ring[(popc + i) % cap]? := by
  intro i hi
  have hc : 0 < cap := by omega
  have hne : (popc + i) % cap ≠ (popc + len) % cap :=
    mod_ne_window hc (by omega) (by omega)
  simp [List.getElem?_set, hne.symm]

/-- Overwriting the slot of the oldest item of a ring leaves the contents
of the rest of the pending window unchanged. -/
theorem ring_window_pop {β : Type u} (ring : List β) (cap popc len : Nat) (x : β)
    (hlen : len ≤ cap) :
    ∀ i, i < len - 1 →
      (ring.set (popc % cap) x)[(popc + 1 + i) % cap]? = ring[(popc + 1 + i) % cap]? := by
  intro i hi
  have hc : 0 < cap := by omega
  have hne : popc % cap ≠ (popc + 1 + i) % cap :=
    mod_ne_window hc (by omega) (by omega)
  simp [List.getElem?_set, hne]

/-- State of the lock-guarded baseline queue (src/fifo1): a ring of
optional slots and two monotone cursors.  The Mutex around the struct is
concurrency-only and does not affect the single-threaded semantics. -/
structure Fifo1State (α : Type u) where
  capacity : Nat
  ring : List (Option α)
  push_cursor : Nat
  pop_cursor : Nat
deriving Repr, DecidableEq

/-- Fifo1::new builds a ring of capacity empty slots with both cursors 0.
The source has no capacity check, so construction never fails. -/
def Fifo1.new (α : Type u) (capacity : Nat) : Fifo1State α :=
  { capacity := capacity, ring := List.replicate capacity none,
    push_cursor := 0, pop_cursor := 0 }

/-- Fifo1::size; the source asserts push_cursor >= pop_cursor, modelled by
returning none (abort) when the asserted inequality fails. -/
def Fifo1.size (s : Fifo1State α) : Option Nat :=
  if s.pop_cursor ≤ s.push_cursor then some (s.push_cursor - s.pop_cursor) else none

/-- Fifo1::is_full. -/
def Fifo1.is_full (s : Fifo1State α) : Option Bool :=
  (Fifo1.size s).map (fun n => s.capacity == n)

/-- Fifo1::is_empty. -/
def Fifo1.is_empty (s : Fifo1State α) : Option Bool :=
  (Fifo1.size s).map (fun n => n == 0)

/-- Fifo1::pop; the outer none models the assert inside size aborting.
Option::take reads the slot and leaves none behind. -/
def Fifo1.pop (s : Fifo1State α) : Option (Option α × Fifo1State α) :=
  match Fifo1.size s with
  | none => none
  | some n =>
    if n = 0 then some (none, s)
    else
      let loc := s.pop_cursor % s.capacity
      let value := s.ring.getD loc none
      some (value, { s with ring := s.ring.set loc none, pop_cursor := s.pop_cursor + 1 })

/-- Fifo1::push. -/
def Fifo1.push (v : α) (s : Fifo1State α) : Option (Bool × Fifo1State α) :=
  match Fifo1.is_full s with
  | none => none
  | some true => some (false, s)
  | some false =>
    let loc := s.push_cursor % s.capacity
    some (true, { s with ring := s.ring.set loc (some v), push_cursor := s.push_cursor + 1 })

/-- Abstraction relation for Fifo1: l is the list of pending items, oldest
first, laid out in ring order starting at the pop cursor. -/
def Fifo1.rel (s : Fifo1State α) (l : List α) : Prop :=
  s.ring.length = s.capacity ∧
  s.pop_cursor ≤ s.push_cursor ∧
  s.push_cursor ≤ s.pop_cursor + s.capacity ∧
  l.length = s.push_cursor - s.pop_cursor ∧
  ∀ i, i < l.length → s.ring[(s.pop_cursor + i) % s.capacity]? = some l[i]?

theorem fifo1_new_rel (α : Type u) (cap : Nat) : Fifo1.rel (Fifo1.new α cap) [] := by
  refine ⟨by simp [Fifo1.new], by simp [Fifo1.new], by simp [Fifo1.new], by simp [Fifo1.new], ?_⟩
  intro i hi
  simp at hi

theorem fifo1_push_ok (s : Fifo1State α) (l : List α) (v : α)
    (hR : Fifo1.rel s l) (hlt : l.length < s.capacity) :
    ∃ s1, Fifo1.push v s = some (true, s1) ∧ Fifo1.rel s1 (l ++ [v]) ∧
      s1.capacity = s.capacity := by
  obtain ⟨hring, hle, hcap, hlen, hcont⟩ := hR
  have hc : 0 < s.capacity := by omega
  have hsz : Fifo1.size s = some (s.push_cursor - s.pop_cursor) := by
    simp [Fifo1.size, hle]
  have hne : s.capacity ≠ s.push_cursor - s.pop_cursor := by omega
  have hnotfull : Fifo1.is_full s = some false := by
    simp [Fifo1.is_full, hsz, hne]
  have hpc : s.push_cursor = s.pop_cursor + l.length := by omega
  refine ⟨{ s with
      ring := s.ring.set (s.push_cursor % s.capacity) (some v)
      push_cursor := s.push_cursor + 1 }, ?_, ⟨?_, ?_, ?_, ?_, ?_⟩, rfl⟩
  · simp [Fifo1.push, hnotfull]
  · show (s.ring.set (s.push_cursor % s.capacity) (some v)).length = s.capacity
    simp [hring]
  · show s.pop_cursor ≤ s.push_cursor + 1
    omega
  · show s.push_cursor + 1 ≤ s.pop_cursor + s.capacity
    omega
  · show (l ++ [v]).length = s.push_cursor + 1 - s.pop_cursor
    simp
    omega
  · intro i hi
    show (s.ring.set (s.push_cursor % s.capacity) (some v))[(s.pop_cursor + i) % s.capacity]? =
      some (l ++ [v])[i]?
    simp only [List.length_append, List.length_singleton] at hi
    rcases Nat.lt_or_ge i l.length with hilt | hige
    · rw [hpc, ring_window_push s.ring s.capacity s.pop_cursor l.length (some v) hlt i hilt,
        hcont i hilt, List.getElem?_append_left hilt]
    · have hieq : i = l.length := by omega
      subst hieq
      have hidx : (s.pop_cursor + l.length) % s.capacity < s.ring.length := by
        rw [hring]
        exact Nat.mod_lt _ hc
      rw [hpc, List.getElem?_set_self hidx, List.getElem?_concat_length]

theorem fifo1_push_full (s : Fifo1State α) (l : List α) (v : α)
    (hR : Fifo1.rel s l) (hlen : l.length = s.capacity) :
    Fifo1.push v s = some (false, s) := by
  obtain ⟨hring, hle, hcap, hlenl, hcont⟩ := hR
  have hsz : Fifo1.size s = some (s.push_cursor - s.pop_cursor) := by
    simp [Fifo1.size, hle]
  have hfull : Fifo1.is_full s = some true := by
    simp [Fifo1.is_full, hsz]
    omega
  simp [Fifo1.push, hfull]

theorem fifo1_pop_ok (s : Fifo1State α) (x : α) (l : List α)
    (hR : Fifo1.rel s (x :: l)) :
    ∃ s1, Fifo1.pop s = some (some x, s1) ∧ Fifo1.rel s1 l ∧
      s1.capacity = s.capacity := by
  obtain ⟨hring, hle, hcap, hlen, hcont⟩ := hR
  simp only [List.length_cons] at hlen
  have hsz : Fifo1.size s = some (s.push_cursor - s.pop_cursor) := by
    simp [Fifo1.size, hle]
  have hnz : ¬(s.push_cursor - s.pop_cursor = 0) := by omega
  have hval : s.ring[s.pop_cursor % s.capacity]? = some (some x) := by
    have h0 := hcont 0 (by simp)
    simp only [Nat.add_zero] at h0
    simpa using h0
  refine ⟨{ s with
      ring := s.ring.set (s.pop_cursor % s.capacity) none
      pop_cursor := s.pop_cursor + 1 }, ?_, ⟨?_, ?_, ?_, ?_, ?_⟩, rfl⟩
  · simp [Fifo1.pop, hsz, hnz, hval]
  · show (s.ring.set (s.pop_cursor % s.capacity) none).length = s.capacity
    simp [hring]
  · show s.pop_cursor + 1 ≤ s.push_cursor
    omega
  · show s.push_cursor ≤ s.pop_cursor + 1 + s.capacity
    omega
  · show l.length = s.push_cursor - (s.pop_cursor + 1)
    omega
  · intro i hi
    show (s.ring.set (s.pop_cursor % s.capacity) none)[(s.pop_cursor + 1 + i) % s.capacity]? =
      some l[i]?
    have hwin := ring_window_pop s.ring s.capacity s.pop_cursor (x :: l).length (none : Option α)
      (by simp; omega) i (by simp; omega)
    rw [hwin]
    have h1 : s.pop_cursor + 1 + i = s.pop_cursor + (i + 1) := by omega
    rw [h1, hcont (i + 1) (by simp; omega)]
    simp

theorem fifo1_pop_empty (s : Fifo1State α) (hR : Fifo1.rel s []) :
    Fifo1.pop s = some (none, s) := by
  obtain ⟨hring, hle, hcap, hlen, hcont⟩ := hR
  simp only [List.length_nil] at hlen
  have hsz : Fifo1.size s = some 0 := by
    simp [Fifo1.size, hle]
    omega
  simp [Fifo1.pop, hsz]

/-- The Fifo1 implementation packaged with its abstraction relation. -/
def fifo1Sim (α : Type u) (cap : Nat) : QueueSim α (Fifo1State α) where
  pushF := Fifo1.push
  popF := Fifo1.pop
  R := fun s l => Fifo1.rel s l ∧ s.capacity = cap
  cap := cap
  len_le := by
    rintro s l ⟨⟨hring, hle, hcap, hlen, _⟩, hc⟩
    omega
  push_ok := by
    rintro s l v ⟨hR, hc⟩ hlt
    obtain ⟨s1, hp, hR1, hcpres⟩ := fifo1_push_ok s l v hR (by omega)
    exact ⟨s1, hp, hR1, by omega⟩
  push_full := by
    rintro s l v ⟨hR, hc⟩ hlen
    exact fifo1_push_full s l v hR (by omega)
  pop_ok := by
    rintro s x l ⟨hR, hc⟩
    obtain ⟨s1, hp, hR1, hcpres⟩ := fifo1_pop_ok s x l hR
    exact ⟨s1, hp, hR1, by omega⟩
  pop_empty := by
    rintro s ⟨hR, hc⟩
    exact fifo1_pop_empty s hR

/-- State of the lock-free SPSC queue (src/fifo2): a ring of optional
slots behind UnsafeCell and two atomic cursors.  Atomic loads/stores of
the cursors are plain reads/writes in the single-threaded model. -/
structure Fifo2State (α : Type u) where
  capacity : Nat
  ring : List (Option α)
  push_cursor : Nat
  pop_cursor : Nat
deriving Repr, DecidableEq

/-- Fifo2::new; the source has no capacity check. -/
def Fifo2.new (α : Type u) (capacity : Nat) : Fifo2State α :=
  { capacity := capacity, ring := List.replicate capacity none,
    push_cursor := 0, pop_cursor := 0 }

/-- Fifo2::pop: empty when the two cursors are equal; otherwise
Option::take the slot at pop_cursor % capacity and advance pop_cursor. -/
def Fifo2.pop (s : Fifo2State α) : Option α × Fifo2State α :=
  if s.push_cursor = s.pop_cursor then (none, s)
  else
    let loc := s.pop_cursor % s.capacity
    let value := s.ring.getD loc none
    (value, { s with ring := s.ring.set loc none, pop_cursor := s.pop_cursor + 1 })

/-- Fifo2::push: full when push_cursor >= pop_cursor + capacity; otherwise
write the slot at push_cursor % capacity and advance push_cursor. -/
def Fifo2.push (v : α) (s : Fifo2State α) : Bool × Fifo2State α :=
  if s.pop_cursor + s.capacity ≤ s.push_cursor then (false, s)
  else
    let loc := s.push_cursor % s.capacity
    (true, { s with ring := s.ring.set loc (some v), push_cursor := s.push_cursor + 1 })

/-- Fifo2::size: the source contains no assert; when push_cursor is below
pop_cursor it clamps the result to 0 and returns normally.  The Option
result mirrors the abort-possibility type of Fifo1::size: here it is
always some. -/
def Fifo2.size (s : Fifo2State α) : Option Nat :=
  if s.push_cursor < s.pop_cursor then some 0
  else some (s.push_cursor - s.pop_cursor)

/-- Abstraction relation for Fifo2. -/
def Fifo2.rel (s : Fifo2State α) (l : List α) : Prop :=
  s.ring.length = s.capacity ∧
  s.pop_cursor ≤ s.push_cursor ∧
  s.push_cursor ≤ s.pop_cursor + s.capacity ∧
  l.length = s.push_cursor - s.pop_cursor ∧
  ∀ i, i < l.length → s.ring[(s.pop_cursor + i) % s.capacity]? = some l[i]?

theorem fifo2_new_rel (α : Type u) (cap : Nat) : Fifo2.rel (Fifo2.new α cap) [] := by
  refine ⟨by simp [Fifo2.new], by simp [Fifo2.new], by simp [Fifo2.new], by simp [Fifo2.new], ?_⟩
  intro i hi
  simp at hi

theorem fifo2_push_ok (s : Fifo2State α) (l : List α) (v : α)
    (hR : Fifo2.rel s l) (hlt : l.length < s.capacity) :
    Fifo2.push v s = (true, { s with
      ring := s.ring.set (s.push_cursor % s.capacity) (some v)
      push_cursor := s.push_cursor + 1 }) ∧
    Fifo2.rel { s with
      ring := s.ring.set (s.push_cursor % s.capacity) (some v)
      push_cursor := s.push_cursor + 1 } (l ++ [v]) := by
  obtain ⟨hring, hle, hcap, hlen, hcont⟩ := hR
  have hc : 0 < s.capacity := by omega
  have hpc : s.push_cursor = s.pop_cursor + l.length := by omega
  refine ⟨by simp [Fifo2.push]; omega, ⟨?_, ?_, ?_, ?_, ?_⟩⟩
  · show (s.ring.set (s.push_cursor % s.capacity) (some v)).length = s.capacity
    simp [hring]
  · show s.pop_cursor ≤ s.push_cursor + 1
    omega
  · show s.push_cursor + 1 ≤ s.pop_cursor + s.capacity
    omega
  · show (l ++ [v]).length = s.push_cursor + 1 - s.pop_cursor
    simp
    omega
  · intro i hi
    show (s.ring.set (s.push_cursor % s.capacity) (some v))[(s.pop_cursor + i) % s.capacity]? =
      some (l ++ [v])[i]?
    simp only [List.length_append, List.length_singleton] at hi
    rcases Nat.lt_or_ge i l.length with hilt | hige
    · rw [hpc, ring_window_push s.ring s.capacity s.pop_cursor l.length (some v) hlt i hilt,
        hcont i hilt, List.getElem?_append_left hilt]
    · have hieq : i = l.length := by omega
      subst hieq
      have hidx : (s.pop_cursor + l.length) % s.capacity < s.ring.length := by
        rw [hring]
        exact Nat.mod_lt _ hc
      rw [hpc, List.getElem?_set_self hidx, List.getElem?_concat_length]

theorem fifo2_push_full (s : Fifo2State α) (l : List α) (v : α)
    (hR : Fifo2.rel s l) (hlen : l.length = s.capacity) :
    Fifo2.push v s = (false, s) := by
  obtain ⟨hring, hle, hcap, hlenl, hcont⟩ := hR
  simp [Fifo2.push]
  omega

theorem fifo2_pop_ok (s : Fifo2State α) (x : α) (l : List α)
    (hR : Fifo2.rel s (x :: l)) :
    Fifo2.pop s = (some x, { s with
      ring := s.ring.set (s.pop_cursor % s.capacity) none
      pop_cursor := s.pop_cursor + 1 }) ∧
    Fifo2.rel { s with
      ring := s.ring.set (s.pop_cursor % s.capacity) none
      pop_cursor := s.pop_cursor + 1 } l := by
  obtain ⟨hring, hle, hcap, hlen, hcont⟩ := hR
  simp only [List.length_cons] at hlen
  have hne : ¬(s.push_cursor = s.pop_cursor) := by omega
  have hval : s.ring[s.pop_cursor % s.capacity]? = some (some x) := by
    have h0 := hcont 0 (by simp)
    simp only [Nat.add_zero] at h0
    simpa using h0
  refine ⟨by simp [Fifo2.pop, hne, hval], ⟨?_, ?_, ?_, ?_, ?_⟩⟩
  · show (s.ring.set (s.pop_cursor % s.capacity) none).length = s.capacity
    simp [hring]
  · show s.pop_cursor + 1 ≤ s.push_cursor
    omega
  · show s.push_cursor ≤ s.pop_cursor + 1 + s.capacity
    omega
  · show l.length = s.push_cursor - (s.pop_cursor + 1)
    omega
  · intro i hi
    show (s.ring.set (s.pop_cursor % s.capacity) none)[(s.pop_cursor + 1 + i) % s.capacity]? =
      some l[i]?
    have hwin := ring_window_pop s.ring s.capacity s.pop_cursor (x :: l).length (none : Option α)
      (by simp; omega) i (by simp; omega)
    rw [hwin]
    have h1 : s.pop_cursor + 1 + i = s.pop_cursor + (i + 1) := by omega
    rw [h1, hcont (i + 1) (by simp; omega)]
    simp

theorem fifo2_pop_empty (s : Fifo2State α) (hR : Fifo2.rel s []) :
    Fifo2.pop s = (none, s) := by
  obtain ⟨hring, hle, hcap, hlen, hcont⟩ := hR
  simp only [List.length_nil] at hlen
  have heq : s.push_cursor = s.pop_cursor := by omega
  simp [Fifo2.pop, heq]

/-- The Fifo2 implementation packaged with its abstraction relation. -/
def fifo2Sim (α : Type u) (cap : Nat) : QueueSim α (Fifo2State α) where
  pushF := fun v s => some (Fifo2.push v s)
  popF := fun s => some (Fifo2.pop s)
  R := fun s l => Fifo2.rel s l ∧ s.capacity = cap
  cap := cap
  len_le := by
    rintro s l ⟨⟨hring, hle, hcap, hlen, _⟩, hc⟩
    omega
  push_ok := by
    rintro s l v ⟨hR, hc⟩ hlt
    obtain ⟨hp, hR1⟩ := fifo2_push_ok s l v hR (by omega)
    exact ⟨_, congrArg some hp, hR1, hc⟩
  push_full := by
    rintro s l v ⟨hR, hc⟩ hlen
    exact congrArg some (fifo2_push_full s l v hR (by omega))
  pop_ok := by
    rintro s x l ⟨hR, hc⟩
    obtain ⟨hp, hR1⟩ := fifo2_pop_ok s x l hR
    exact ⟨_, congrArg some hp, hR1, hc⟩
  pop_empty := by
    rintro s ⟨hR, hc⟩
    exact congrArg some (fifo2_pop_empty s hR)

/-- State of the cache-padded SPSC queue (src/fifo3): algorithmically
identical to Fifo2, with each cursor wrapped in CachePadded; the wrapper
(field access .0 in the source) is memory layout only and has no
semantic content in the model. -/
structure Fifo3State (α : Type u) where
  capacity : Nat
  ring : List (Option α)
  push_cursor : Nat
  pop_cursor : Nat
deriving Repr, DecidableEq

/-- Fifo3::new; the source has no capacity check. -/
def Fifo3.new (α : Type u) (capacity : Nat) : Fifo3State α :=
  { capacity := capacity, ring := List.replicate capacity none,
    push_cursor := 0, pop_cursor := 0 }

/-- Fifo3::pop: empty when the two cursors are equal; otherwise
Option::take the slot at pop_cursor % capacity and advance pop_cursor. -/
def Fifo3.pop (s : Fifo3State α) : Option α × Fifo3State α :=
  if s.push_cursor = s.pop_cursor then (none, s)
  else
    let loc := s.pop_cursor % s.capacity
    let value := s.ring.getD loc none
    (value, { s with ring := s.ring.set loc none, pop_cursor := s.pop_cursor + 1 })

/-- Fifo3::push: full when push_cursor >= pop_cursor + capacity; otherwise
write the slot at push_cursor % capacity and advance push_cursor. -/
def Fifo3.push (v : α) (s : Fifo3State α) : Bool × Fifo3State α :=
  if s.pop_cursor + s.capacity ≤ s.push_cursor then (false, s)
  else
    let loc := s.push_cursor % s.capacity
    (true, { s with ring := s.ring.set loc (some v), push_cursor := s.push_cursor + 1 })

/-- Abstraction relation for Fifo3. -/
def Fifo3.rel (s : Fifo3State α) (l : List α) : Prop :=
  s.ring.length = s.capacity ∧
  s.pop_cursor ≤ s.push_cursor ∧
  s.push_cursor ≤ s.pop_cursor + s.capacity ∧
  l.length = s.push_cursor - s.pop_cursor ∧
  ∀ i, i < l.length → s.ring[(s.pop_cursor + i) % s.capacity]? = some l[i]?

theorem fifo3_new_rel (α : Type u) (cap : Nat) : Fifo3.rel (Fifo3.new α cap) [] := by
  refine ⟨by simp [Fifo3.new], by simp [Fifo3.new], by simp [Fifo3.new], by simp [Fifo3.new], ?_⟩
  intro i hi
  simp at hi

theorem fifo3_push_ok (s : Fifo3State α) (l : List α) (v : α)
    (hR : Fifo3.rel s l) (hlt : l.length < s.capacity) :
    Fifo3.push v s = (true, { s with
      ring := s.ring.set (s.push_cursor % s.capacity) (some v)
      push_cursor := s.push_cursor + 1 }) ∧
    Fifo3.rel { s with
      ring := s.ring.set (s.push_cursor % s.capacity) (some v)
      push_cursor := s.push_cursor + 1 } (l ++ [v]) := by
  obtain ⟨hring, hle, hcap, hlen, hcont⟩ := hR
  have hc : 0 < s.capacity := by omega
  have hpc : s.push_cursor = s.pop_cursor + l.length := by omega
  refine ⟨by simp [Fifo3.push]; omega, ⟨?_, ?_, ?_, ?_, ?_⟩⟩
  · show (s.ring.set (s.push_cursor % s.capacity) (some v)).length = s.capacity
    simp [hring]
  · show s.pop_cursor ≤ s.push_cursor + 1
    omega
  · show s.push_cursor + 1 ≤ s.pop_cursor + s.capacity
    omega
  · show (l ++ [v]).length = s.push_cursor + 1 - s.pop_cursor
    simp
    omega
  · intro i hi
    show (s.ring.set (s.push_cursor % s.capacity) (some v))[(s.pop_cursor + i) % s.capacity]? =
      some (l ++ [v])[i]?
    simp only [List.length_append, List.length_singleton] at hi
    rcases Nat.lt_or_ge i l.length with hilt | hige
    · rw [hpc, ring_window_push s.ring s.capacity s.pop_cursor l.length (some v) hlt i hilt,
        hcont i hilt, List.getElem?_append_left hilt]
    · have hieq : i = l.length := by omega
      subst hieq
      have hidx : (s.pop_cursor + l.length) % s.capacity < s.ring.length := by
        rw [hring]
        exact Nat.mod_lt _ hc
      rw [hpc, List.getElem?_set_self hidx, List.getElem?_concat_length]

theorem fifo3_push_full (s : Fifo3State α) (l : List α) (v : α)
    (hR : Fifo3.rel s l) (hlen : l.length = s.capacity) :
    Fifo3.push v s = (false, s) := by
  obtain ⟨hring, hle, hcap, hlenl, hcont⟩ := hR
  simp [Fifo3.push]
  omega

theorem fifo3_pop_ok (s : Fifo3State α) (x : α) (l : List α)
    (hR : Fifo3.rel s (x :: l)) :
    Fifo3.pop s = (some x, { s with
      ring := s.ring.set (s.pop_cursor % s.capacity) none
      pop_cursor := s.pop_cursor + 1 }) ∧
    Fifo3.rel { s with
      ring := s.ring.set (s.pop_cursor % s.capacity) none
      pop_cursor := s.pop_cursor + 1 } l := by
  obtain ⟨hring, hle, hcap, hlen, hcont⟩ := hR
  simp only [List.length_cons] at hlen
  have hne : ¬(s.push_cursor = s.pop_cursor) := by omega
  have hval : s.ring[s.pop_cursor % s.capacity]? = some (some x) := by
    have h0 := hcont 0 (by simp)
    simp only [Nat.add_zero] at h0
    simpa using h0
  refine ⟨by simp [Fifo3.pop, hne, hval], ⟨?_, ?_, ?_, ?_, ?_⟩⟩
  · show (s.ring.set (s.pop_cursor % s.capacity) none).length = s.capacity
    simp [hring]
  · show s.pop_cursor + 1 ≤ s.push_cursor
    omega
  · show s.push_cursor ≤ s.pop_cursor + 1 + s.capacity
    omega
  · show l.length = s.push_cursor - (s.pop_cursor + 1)
    omega
  · intro i hi
    show (s.ring.set (s.pop_cursor % s.capacity) none)[(s.pop_cursor + 1 + i) % s.capacity]? =
      some l[i]?
    have hwin := ring_window_pop s.ring s.capacity s.pop_cursor (x :: l).length (none : Option α)
      (by simp; omega) i (by simp; omega)
    rw [hwin]
    have h1 : s.pop_cursor + 1 + i = s.pop_cursor + (i + 1) := by omega
    rw [h1, hcont (i + 1) (by simp; omega)]
    simp

theorem fifo3_pop_empty (s : Fifo3State α) (hR : Fifo3.rel s []) :
    Fifo3.pop s = (none, s) := by
  obtain ⟨hring, hle, hcap, hlen, hcont⟩ := hR
  simp only [List.length_nil] at hlen
  have heq : s.push_cursor = s.pop_cursor := by omega
  simp [Fifo3.pop, heq]

/-- The Fifo3 implementation packaged with its abstraction relation. -/
def fifo3Sim (α : Type u) (cap : Nat) : QueueSim α (Fifo3State α) where
  pushF := fun v s => some (Fifo3.push v s)
  popF := fun s => some (Fifo3.pop s)
  R := fun s l => Fifo3.rel s l ∧ s.capacity = cap
  cap := cap
  len_le := by
    rintro s l ⟨⟨hring, hle, hcap, hlen, _⟩, hc⟩
    omega
  push_ok := by
    rintro s l v ⟨hR, hc⟩ hlt
    obtain ⟨hp, hR1⟩ := fifo3_push_ok s l v hR (by omega)
    exact ⟨_, congrArg some hp, hR1, hc⟩
  push_full := by
    rintro s l v ⟨hR, hc⟩ hlen
    exact congrArg some (fifo3_push_full s l v hR (by omega))
  pop_ok := by
    rintro s x l ⟨hR, hc⟩
    obtain ⟨hp, hR1⟩ := fifo3_pop_ok s x l hR
    exact ⟨_, congrArg some hp, hR1, hc⟩
  pop_empty := by
    rintro s ⟨hR, hc⟩
    exact congrArg some (fifo3_pop_empty s hR)

/-- State of the shadow-cursor-cached SPSC queue (src/fifo4).  Each side
owns its cursor plus a plain non-atomic cached copy of the other side's
cursor (cached_pop lives with the producer, cached_push with the
consumer); the CachePadded grouping is memory layout only. -/
structure Fifo4State (α : Type u) where
  capacity : Nat
  ring : List (Option α)
  push_cursor : Nat
  cached_pop : Nat
  pop_cursor : Nat
  cached_push : Nat
deriving Repr, DecidableEq

/-- Fifo4::new; the source has no capacity check. -/
def Fifo4.new (α : Type u) (capacity : Nat) : Fifo4State α :=
  { capacity := capacity, ring := List.replicate capacity none,
    push_cursor := 0, cached_pop := 0, pop_cursor := 0, cached_push := 0 }

/-- The common tail of Fifo4::pop after the emptiness checks: take the
slot at pop_val % capacity and advance the pop cursor. -/
def Fifo4.popFrom (s : Fifo4State α) (pop_val : Nat) : Option α × Fifo4State α :=
  let loc := pop_val % s.capacity
  (s.ring.getD loc none, { s with ring := s.ring.set loc none, pop_cursor := pop_val + 1 })

/-- Fifo4::pop: consult the consumer's cached copy of the push cursor
first; only when the queue looks empty re-load the real push cursor into
the cache and re-check. -/
def Fifo4.pop (s : Fifo4State α) : Option α × Fifo4State α :=
  let pop_val := s.pop_cursor
  if s.cached_push ≤ pop_val then
    let s1 := { s with cached_push := s.push_cursor }
    if s1.cached_push ≤ pop_val then (none, s1)
    else Fifo4.popFrom s1 pop_val
  else Fifo4.popFrom s pop_val

/-- The common tail of Fifo4::push after the fullness checks: write the
slot at push_val % capacity and advance the push cursor. -/
def Fifo4.pushTo (v : α) (s : Fifo4State α) (push_val : Nat) : Bool × Fifo4State α :=
  let loc := push_val % s.capacity
  (true, { s with ring := s.ring.set loc (some v), push_cursor := push_val + 1 })

/-- Fifo4::push: consult the producer's cached copy of the pop cursor
first; only when the queue looks full re-load the real pop cursor into
the cache and re-check. -/
def Fifo4.push (v : α) (s : Fifo4State α) : Bool × Fifo4State α :=
  let push_val := s.push_cursor
  if s.cached_pop + s.capacity ≤ push_val then
    let s1 := { s with cached_pop := s.pop_cursor }
    if s1.cached_pop + s1.capacity ≤ push_val then (false, s1)
    else Fifo4.pushTo v s1 push_val
  else Fifo4.pushTo v s push_val

/-- Abstraction relation for Fifo4: the cursor/ring conditions of the
plain lock-free variant, plus the shadow conditions that hold in every
single-threaded reachable state: each cached copy is at most the cursor
it mirrors, the cache of the push cursor is exact when the queue is
empty, and the cache of the pop cursor is exact when the queue is
full. -/
def Fifo4.rel (s : Fifo4State α) (l : List α) : Prop :=
  s.ring.length = s.capacity ∧
  s.pop_cursor ≤ s.push_cursor ∧
  s.push_cursor ≤ s.pop_cursor + s.capacity ∧
  s.cached_pop ≤ s.pop_cursor ∧
  s.cached_push ≤ s.push_cursor ∧
  (s.push_cursor = s.pop_cursor → s.cached_push = s.push_cursor) ∧
  (s.push_cursor = s.pop_cursor + s.capacity → s.cached_pop = s.pop_cursor) ∧
  l.length = s.push_cursor - s.pop_cursor ∧
  ∀ i, i < l.length → s.ring[(s.pop_cursor + i) % s.capacity]? = some l[i]?

theorem fifo4_new_rel (α : Type u) (cap : Nat) : Fifo4.rel (Fifo4.new α cap) [] := by
  refine ⟨by simp [Fifo4.new], by simp [Fifo4.new], by simp [Fifo4.new], by simp [Fifo4.new],
    by simp [Fifo4.new], by simp [Fifo4.new], by simp [Fifo4.new], by simp [Fifo4.new], ?_⟩
  intro i hi
  simp at hi

theorem fifo4_push_ok (s : Fifo4State α) (l : List α) (v : α)
    (hR : Fifo4.rel s l) (hlt : l.length < s.capacity) :
    ∃ s1, Fifo4.push v s = (true, s1) ∧ Fifo4.rel s1 (l ++ [v]) ∧
      s1.capacity = s.capacity := by
  obtain ⟨hring, hle, hcap, hcp, hcq, hde, hdf, hlen, hcont⟩ := hR
  have hc : 0 < s.capacity := by omega
  have hpc : s.push_cursor = s.pop_cursor + l.length := by omega
  have hcontent : ∀ i, i < (l ++ [v]).length →
      (s.ring.set (s.push_cursor % s.capacity) (some v))[(s.pop_cursor + i) % s.capacity]? =
      some (l ++ [v])[i]? := by
    intro i hi
    simp only [List.length_append, List.length_singleton] at hi
    rcases Nat.lt_or_ge i l.length with hilt | hige
    · rw [hpc, ring_window_push s.ring s.capacity s.pop_cursor l.length (some v) hlt i hilt,
        hcont i hilt, List.getElem?_append_left hilt]
    · have hieq : i = l.length := by omega
      subst hieq
      have hidx : (s.pop_cursor + l.length) % s.capacity < s.ring.length := by
        rw [hring]
        exact Nat.mod_lt _ hc
      rw [hpc, List.getElem?_set_self hidx, List.getElem?_concat_length]
  have hlenap : (l ++ [v]).length = s.push_cursor + 1 - s.pop_cursor := by
    simp
    omega
  by_cases hfast : s.cached_pop + s.capacity ≤ s.push_cursor
  · have hnotfull : ¬(s.pop_cursor + s.capacity ≤ s.push_cursor) := by omega
    refine ⟨{ s with
        ring := s.ring.set (s.push_cursor % s.capacity) (some v)
        push_cursor := s.push_cursor + 1
        cached_pop := s.pop_cursor }, ?_, ⟨?_, ?_, ?_, ?_, ?_, ?_, ?_, ?_, ?_⟩, rfl⟩
    · show Fifo4.push v s = _
      rw [Fifo4.push]
      simp only [if_pos hfast]
      rw [if_neg hnotfull]
      rfl
    · show (s.ring.set (s.push_cursor % s.capacity) (some v)).length = s.capacity
      simp [hring]
    · show s.pop_cursor ≤ s.push_cursor + 1
      omega
    · show s.push_cursor + 1 ≤ s.pop_cursor + s.capacity
      omega
    · show s.pop_cursor ≤ s.pop_cursor
      omega
    · show s.cached_push ≤ s.push_cursor + 1
      omega
    · show s.push_cursor + 1 = s.pop_cursor → s.cached_push = s.push_cursor + 1
      omega
    · show s.push_cursor + 1 = s.pop_cursor + s.capacity → s.pop_cursor = s.pop_cursor
      omega
    · exact hlenap
    · exact hcontent
  · refine ⟨{ s with
        ring := s.ring.set (s.push_cursor % s.capacity) (some v)
        push_cursor := s.push_cursor + 1 }, ?_, ⟨?_, ?_, ?_, ?_, ?_, ?_, ?_, ?_, ?_⟩, rfl⟩
    · show Fifo4.push v s = _
      rw [Fifo4.push]
      rw [if_neg hfast]
      rfl
    · show (s.ring.set (s.push_cursor % s.capacity) (some v)).length = s.capacity
      simp [hring]
    · show s.pop_cursor ≤ s.push_cursor + 1
      omega
    · show s.push_cursor + 1 ≤ s.pop_cursor + s.capacity
      omega
    · show s.cached_pop ≤ s.pop_cursor
      omega
    · show s.cached_push ≤ s.push_cursor + 1
      omega
    · show s.push_cursor + 1 = s.pop_cursor → s.cached_push = s.push_cursor + 1
      omega
    · show s.push_cursor + 1 = s.pop_cursor + s.capacity → s.cached_pop = s.pop_cursor
      omega
    · exact hlenap
    · exact hcontent

theorem fifo4_push_full (s : Fifo4State α) (l : List α) (v : α)
    (hR : Fifo4.rel s l) (hlen : l.length = s.capacity) :
    Fifo4.push v s = (false, s) := by
  obtain ⟨hring, hle, hcap, hcp, hcq, hde, hdf, hlenl, hcont⟩ := hR
  have hfull : s.push_cursor = s.pop_cursor + s.capacity := by omega
  have hexact : s.cached_pop = s.pop_cursor := hdf hfull
  have hfast : s.cached_pop + s.capacity ≤ s.push_cursor := by omega
  have hrefresh : ({ s with cached_pop := s.pop_cursor } : Fifo4State α) = s := by
    obtain ⟨c, r, pc, cp, qc, cq⟩ := s
    simp only at hexact ⊢
    simp [hexact]
  rw [Fifo4.push]
  simp only [if_pos hfast]
  rw [if_pos (by show s.pop_cursor + s.capacity ≤ s.push_cursor; omega), hrefresh]

theorem fifo4_pop_ok (s : Fifo4State α) (x : α) (l : List α)
    (hR : Fifo4.rel s (x :: l)) :
    ∃ s1, Fifo4.pop s = (some x, s1) ∧ Fifo4.rel s1 l ∧
      s1.capacity = s.capacity := by
  obtain ⟨hring, hle, hcap, hcp, hcq, hde, hdf, hlen, hcont⟩ := hR
  simp only [List.length_cons] at hlen
  have hc : 0 < s.capacity := by omega
  have hval : s.ring[s.pop_cursor % s.capacity]? = some (some x) := by
    have h0 := hcont 0 (by simp)
    simp only [Nat.add_zero] at h0
    simpa using h0
  have hvalD : s.ring.getD (s.pop_cursor % s.capacity) none = some x := by
    rw [List.getD_eq_getElem?_getD, hval]
    rfl
  have hcontent : ∀ i, i < l.length →
      (s.ring.set (s.pop_cursor % s.capacity) none)[(s.pop_cursor + 1 + i) % s.capacity]? =
      some l[i]? := by
    intro i hi
    have hwin := ring_window_pop s.ring s.capacity s.pop_cursor (x :: l).length (none : Option α)
      (by simp; omega) i (by simp; omega)
    rw [hwin]
    have h1 : s.pop_cursor + 1 + i = s.pop_cursor + (i + 1) := by omega
    rw [h1, hcont (i + 1) (by simp; omega)]
    simp
  by_cases hfast : s.cached_push ≤ s.pop_cursor
  · have hnotempty : ¬(s.push_cursor ≤ s.pop_cursor) := by omega
    refine ⟨{ s with
        ring := s.ring.set (s.pop_cursor % s.capacity) none
        pop_cursor := s.pop_cursor + 1
        cached_push := s.push_cursor }, ?_, ⟨?_, ?_, ?_, ?_, ?_, ?_, ?_, ?_, ?_⟩, rfl⟩
    · show Fifo4.pop s = _
      rw [Fifo4.pop]
      simp only [if_pos hfast]
      rw [if_neg hnotempty]
      show Fifo4.popFrom _ _ = _
      rw [Fifo4.popFrom]
      show (s.ring.getD (s.pop_cursor % s.capacity) none, _) = _
      rw [hvalD]
    · show (s.ring.set (s.pop_cursor % s.capacity) none).length = s.capacity
      simp [hring]
    · show s.pop_cursor + 1 ≤ s.push_cursor
      omega
    · show s.push_cursor ≤ s.pop_cursor + 1 + s.capacity
      omega
    · show s.cached_pop ≤ s.pop_cursor + 1
      omega
    · show s.push_cursor ≤ s.push_cursor
      omega
    · show s.push_cursor = s.pop_cursor + 1 → s.push_cursor = s.push_cursor
      omega
    · show s.push_cursor = s.pop_cursor + 1 + s.capacity → s.cached_pop = s.pop_cursor + 1
      omega
    · show l.length = s.push_cursor - (s.pop_cursor + 1)
      omega
    · exact hcontent
  · refine ⟨{ s with
        ring := s.ring.set (s.pop_cursor % s.capacity) none
        pop_cursor := s.pop_cursor + 1 }, ?_, ⟨?_, ?_, ?_, ?_, ?_, ?_, ?_, ?_, ?_⟩, rfl⟩
    · show Fifo4.pop s = _
      rw [Fifo4.pop]
      rw [if_neg hfast]
      show Fifo4.popFrom _ _ = _
      rw [Fifo4.popFrom]
      show (s.ring.getD (s.pop_cursor % s.capacity) none, _) = _
      rw [hvalD]
    · show (s.ring.set (s.pop_cursor % s.capacity) none).length = s.capacity
      simp [hring]
    · show s.pop_cursor + 1 ≤ s.push_cursor
      omega
    · show s.push_cursor ≤ s.pop_cursor + 1 + s.capacity
      omega
    · show s.cached_pop ≤ s.pop_cursor + 1
      omega
    · show s.cached_push ≤ s.push_cursor
      omega
    · show s.push_cursor = s.pop_cursor + 1 → s.cached_push = s.push_cursor
      omega
    · show s.push_cursor = s.pop_cursor + 1 + s.capacity → s.cached_pop = s.pop_cursor + 1
      omega
    · show l.length = s.push_cursor - (s.pop_cursor + 1)
      omega
    · exact hcontent

theorem fifo4_pop_empty (s : Fifo4State α) (hR : Fifo4.rel s []) :
    Fifo4.pop s = (none, s) := by
  obtain ⟨hring, hle, hcap, hcp, hcq, hde, hdf, hlen, hcont⟩ := hR
  simp only [List.length_nil] at hlen
  have hempty : s.push_cursor = s.pop_cursor := by omega
  have hexact : s.cached_push = s.push_cursor := hde hempty
  have hfast : s.cached_push ≤ s.pop_cursor := by omega
  have hrefresh : ({ s with cached_push := s.push_cursor } : Fifo4State α) = s := by
    obtain ⟨c, r, pc, cp, qc, cq⟩ := s
    simp only at hexact ⊢
    simp [hexact]
  rw [Fifo4.pop]
  simp only [if_pos hfast]
  rw [if_pos (by show s.push_cursor ≤ s.pop_cursor; omega), hrefresh]

/-- The Fifo4 implementation packaged with its abstraction relation. -/
def fifo4Sim (α : Type u) (cap : Nat) : QueueSim α (Fifo4State α) where
  pushF := fun v s => some (Fifo4.push v s)
  popF := fun s => some (Fifo4.pop s)
  R := fun s l => Fifo4.rel s l ∧ s.capacity = cap
  cap := cap
  len_le := by
    rintro s l ⟨⟨hring, hle, hcap, _, _, _, _, hlen, _⟩, hc⟩
    omega
  push_ok := by
    rintro s l v ⟨hR, hc⟩ hlt
    obtain ⟨s1, hp, hR1, hcpres⟩ := fifo4_push_ok s l v hR (by omega)
    exact ⟨s1, congrArg some hp, hR1, by omega⟩
  push_full := by
    rintro s l v ⟨hR, hc⟩ hlen
    exact congrArg some (fifo4_push_full s l v hR (by omega))
  pop_ok := by
    rintro s x l ⟨hR, hc⟩
    obtain ⟨s1, hp, hR1, hcpres⟩ := fifo4_pop_ok s x l hR
    exact ⟨s1, congrArg some hp, hR1, by omega⟩
  pop_empty := by
    rintro s ⟨hR, hc⟩
    exact congrArg some (fifo4_pop_empty s hR)

/-- State of the raw-storage SPSC queue (src/fifo5).  Ring slots are
MaybeUninit storage: none models a slot whose bytes were never written;
some v models bytes holding a value v.  A popped slot keeps its bytes
(pop reads without writing back), so presence is tracked only by the
cursors. -/
structure Fifo5State (α : Type u) where
  capacity : Nat
  ring : List (Option α)
  push_cursor : Nat
  cached_pop : Nat
  pop_cursor : Nat
  cached_push : Nat
deriving Repr, DecidableEq

/-- Fifo5::new; the ring is allocated uninitialized and there is no
capacity check. -/
def Fifo5.new (α : Type u) (capacity : Nat) : Fifo5State α :=
  { capacity := capacity, ring := List.replicate capacity none,
    push_cursor := 0, cached_pop := 0, pop_cursor := 0, cached_push := 0 }

/-- The common tail of Fifo5::pop: read the slot at pop_val % capacity by
ptr::read without writing the slot back, and advance the pop cursor.  The
assume_init read of possibly-unwritten bytes is modelled by getD default;
under the queue invariant the slot is always written. -/
def Fifo5.popFrom [Inhabited α] (s : Fifo5State α) (pop_val : Nat) : Option α × Fifo5State α :=
  let loc := pop_val % s.capacity
  (some ((s.ring.getD loc none).getD default), { s with pop_cursor := pop_val + 1 })

/-- Fifo5::pop: same shadow-cursor emptiness protocol as Fifo4. -/
def Fifo5.pop [Inhabited α] (s : Fifo5State α) : Option α × Fifo5State α :=
  let pop_val := s.pop_cursor
  if s.cached_push ≤ pop_val then
    let s1 := { s with cached_push := s.push_cursor }
    if s1.cached_push ≤ pop_val then (none, s1)
    else Fifo5.popFrom s1 pop_val
  else Fifo5.popFrom s pop_val

/-- The common tail of Fifo5::push: write the item directly into the slot
at push_val % capacity and advance the push cursor. -/
def Fifo5.pushTo (v : α) (s : Fifo5State α) (push_val : Nat) : Bool × Fifo5State α :=
  let loc := push_val % s.capacity
  (true, { s with ring := s.ring.set loc (some v), push_cursor := push_val + 1 })

/-- Fifo5::push: same shadow-cursor fullness protocol as Fifo4. -/
def Fifo5.push (v : α) (s : Fifo5State α) : Bool × Fifo5State α :=
  let push_val := s.push_cursor
  if s.cached_pop + s.capacity ≤ push_val then
    let s1 := { s with cached_pop := s.pop_cursor }
    if s1.cached_pop + s1.capacity ≤ push_val then (false, s1)
    else Fifo5.pushTo v s1 push_val
  else Fifo5.pushTo v s push_val

/-- The slot contents destroyed by Fifo5's Drop implementation, in order:
drop_in_place runs once for each counter value i in pop_cursor..push_cursor,
on the slot at i % capacity (for item types with a destructor). -/
def Fifo5.dropped (s : Fifo5State α) : List (Option α) :=
  (List.range' s.pop_cursor (s.push_cursor - s.pop_cursor)).map
    (fun i => s.ring.getD (i % s.capacity) none)

/-- Abstraction relation for Fifo5: identical in content to Fifo4's; a
popped slot may retain stale bytes, which the relation simply does not
constrain. -/
def Fifo5.rel (s : Fifo5State α) (l : List α) : Prop :=
  s.ring.length = s.capacity ∧
  s.pop_cursor ≤ s.push_cursor ∧
  s.push_cursor ≤ s.pop_cursor + s.capacity ∧
  s.cached_pop ≤ s.pop_cursor ∧
  s.cached_push ≤ s.push_cursor ∧
  (s.push_cursor = s.pop_cursor → s.cached_push = s.push_cursor) ∧
  (s.push_cursor = s.pop_cursor + s.capacity → s.cached_pop = s.pop_cursor) ∧
  l.length = s.push_cursor - s.pop_cursor ∧
  ∀ i, i < l.length → s.ring[(s.pop_cursor + i) % s.capacity]? = some l[i]?

theorem fifo5_new_rel (α : Type u) (cap : Nat) : Fifo5.rel (Fifo5.new α cap) [] := by
  refine ⟨by simp [Fifo5.new], by simp [Fifo5.new], by simp [Fifo5.new], by simp [Fifo5.new],
    by simp [Fifo5.new], by simp [Fifo5.new], by simp [Fifo5.new], by simp [Fifo5.new], ?_⟩
  intro i hi
  simp at hi

theorem fifo5_push_ok (s : Fifo5State α) (l : List α) (v : α)
    (hR : Fifo5.rel s l) (hlt : l.length < s.capacity) :
    ∃ s1, Fifo5.push v s = (true, s1) ∧ Fifo5.rel s1 (l ++ [v]) ∧
      s1.capacity = s.capacity := by
  obtain ⟨hring, hle, hcap, hcp, hcq, hde, hdf, hlen, hcont⟩ := hR
  have hc : 0 < s.capacity := by omega
  have hpc : s.push_cursor = s.pop_cursor + l.length := by omega
  have hcontent : ∀ i, i < (l ++ [v]).length →
      (s.ring.set (s.push_cursor % s.capacity) (some v))[(s.pop_cursor + i) % s.capacity]? =
      some (l ++ [v])[i]? := by
    intro i hi
    simp only [List.length_append, List.length_singleton] at hi
    rcases Nat.lt_or_ge i l.length with hilt | hige
    · rw [hpc, ring_window_push s.ring s.capacity s.pop_cursor l.length (some v) hlt i hilt,
        hcont i hilt, List.getElem?_append_left hilt]
    · have hieq : i = l.length := by omega
      subst hieq
      have hidx : (s.pop_cursor + l.length) % s.capacity < s.ring.length := by
        rw [hring]
        exact Nat.mod_lt _ hc
      rw [hpc, List.getElem?_set_self hidx, List.getElem?_concat_length]
  have hlenap : (l ++ [v]).length = s.push_cursor + 1 - s.pop_cursor := by
    simp
    omega
  by_cases hfast : s.cached_pop + s.capacity ≤ s.push_cursor
  · have hnotfull : ¬(s.pop_cursor + s.capacity ≤ s.push_cursor) := by omega
    refine ⟨{ s with
        ring := s.ring.set (s.push_cursor % s.capacity) (some v)
        push_cursor := s.push_cursor + 1
        cached_pop := s.pop_cursor }, ?_, ⟨?_, ?_, ?_, ?_, ?_, ?_, ?_, ?_, ?_⟩, rfl⟩
    · show Fifo5.push v s = _
      rw [Fifo5.push]
      simp only [if_pos hfast]
      rw [if_neg hnotfull]
      rfl
    · show (s.ring.set (s.push_cursor % s.capacity) (some v)).length = s.capacity
      simp [hring]
    · show s.pop_cursor ≤ s.push_cursor + 1
      omega
    · show s.push_cursor + 1 ≤ s.pop_cursor + s.capacity
      omega
    · show s.pop_cursor ≤ s.pop_cursor
      omega
    · show s.cached_push ≤ s.push_cursor + 1
      omega
    · show s.push_cursor + 1 = s.pop_cursor → s.cached_push = s.push_cursor + 1
      omega
    · show s.push_cursor + 1 = s.pop_cursor + s.capacity → s.pop_cursor = s.pop_cursor
      omega
    · exact hlenap
    · exact hcontent
  · refine ⟨{ s with
        ring := s.ring.set (s.push_cursor % s.capacity) (some v)
        push_cursor := s.push_cursor + 1 }, ?_, ⟨?_, ?_, ?_, ?_, ?_, ?_, ?_, ?_, ?_⟩, rfl⟩
    · show Fifo5.push v s = _
      rw [Fifo5.push]
      rw [if_neg hfast]
      rfl
    · show (s.ring.set (s.push_cursor % s.capacity) (some v)).length = s.capacity
      simp [hring]
    · show s.pop_cursor ≤ s.push_cursor + 1
      omega
    · show s.push_cursor + 1 ≤ s.pop_cursor + s.capacity
      omega
    · show s.cached_pop ≤ s.pop_cursor
      omega
    · show s.cached_push ≤ s.push_cursor + 1
      omega
    · show s.push_cursor + 1 = s.pop_cursor → s.cached_push = s.push_cursor + 1
      omega
    · show s.push_cursor + 1 = s.pop_cursor + s.capacity → s.cached_pop = s.pop_cursor
      omega
    · exact hlenap
    · exact hcontent

theorem fifo5_push_full (s : Fifo5State α) (l : List α) (v : α)
    (hR : Fifo5.rel s l) (hlen : l.length = s.capacity) :
    Fifo5.push v s = (false, s) := by
  obtain ⟨hring, hle, hcap, hcp, hcq, hde, hdf, hlenl, hcont⟩ := hR
  have hfull : s.push_cursor = s.pop_cursor + s.capacity := by omega
  have hexact : s.cached_pop = s.pop_cursor := hdf hfull
  have hfast : s.cached_pop + s.capacity ≤ s.push_cursor := by omega
  have hrefresh : ({ s with cached_pop := s.pop_cursor } : Fifo5State α) = s := by
    obtain ⟨c, r, pc, cp, qc, cq⟩ := s
    simp only at hexact ⊢
    simp [hexact]
  rw [Fifo5.push]
  simp only [if_pos hfast]
  rw [if_pos (by show s.pop_cursor + s.capacity ≤ s.push_cursor; omega), hrefresh]

theorem fifo5_pop_ok [Inhabited α] (s : Fifo5State α) (x : α) (l : List α)
    (hR : Fifo5.rel s (x :: l)) :
    ∃ s1, Fifo5.pop s = (some x, s1) ∧ Fifo5.rel s1 l ∧
      s1.capacity = s.capacity := by
  obtain ⟨hring, hle, hcap, hcp, hcq, hde, hdf, hlen, hcont⟩ := hR
  simp only [List.length_cons] at hlen
  have hval : s.ring[s.pop_cursor % s.capacity]? = some (some x) := by
    have h0 := hcont 0 (by simp)
    simp only [Nat.add_zero] at h0
    simpa using h0
  have hvalD : some ((s.ring.getD (s.pop_cursor % s.capacity) none).getD default) =
      (some x : Option α) := by
    rw [List.getD_eq_getElem?_getD, hval]
    rfl
  have hcontent : ∀ i, i < l.length →
      s.ring[(s.pop_cursor + 1 + i) % s.capacity]? = some l[i]? := by
    intro i hi
    have h1 : s.pop_cursor + 1 + i = s.pop_cursor + (i + 1) := by omega
    rw [h1, hcont (i + 1) (by simp; omega)]
    simp
  by_cases hfast : s.cached_push ≤ s.pop_cursor
  · have hnotempty : ¬(s.push_cursor ≤ s.pop_cursor) := by omega
    refine ⟨{ s with
        pop_cursor := s.pop_cursor + 1
        cached_push := s.push_cursor }, ?_, ⟨?_, ?_, ?_, ?_, ?_, ?_, ?_, ?_, ?_⟩, rfl⟩
    · show Fifo5.pop s = _
      rw [Fifo5.pop]
      simp only [if_pos hfast]
      rw [if_neg hnotempty]
      show Fifo5.popFrom _ _ = _
      rw [Fifo5.popFrom]
      show (some ((s.ring.getD (s.pop_cursor % s.capacity) none).getD default), _) = _
      rw [hvalD]
    · exact hring
    · show s.pop_cursor + 1 ≤ s.push_cursor
      omega
    · show s.push_cursor ≤ s.pop_cursor + 1 + s.capacity
      omega
    · show s.cached_pop ≤ s.pop_cursor + 1
      omega
    · show s.push_cursor ≤ s.push_cursor
      omega
    · show s.push_cursor = s.pop_cursor + 1 → s.push_cursor = s.push_cursor
      omega
    · show s.push_cursor = s.pop_cursor + 1 + s.capacity → s.cached_pop = s.pop_cursor + 1
      omega
    · show l.length = s.push_cursor - (s.pop_cursor + 1)
      omega
    · exact hcontent
  · refine ⟨{ s with
        pop_cursor := s.pop_cursor + 1 }, ?_, ⟨?_, ?_, ?_, ?_, ?_, ?_, ?_, ?_, ?_⟩, rfl⟩
    · show Fifo5.pop s = _
      rw [Fifo5.pop]
      rw [if_neg hfast]
      show Fifo5.popFrom _ _ = _
      rw [Fifo5.popFrom]
      show (some ((s.ring.getD (s.pop_cursor % s.capacity) none).getD default), _) = _
      rw [hvalD]
    · exact hring
    · show s.pop_cursor + 1 ≤ s.push_cursor
      omega
    · show s.push_cursor ≤ s.pop_cursor + 1 + s.capacity
      omega
    · show s.cached_pop ≤ s.pop_cursor + 1
      omega
    · show s.cached_push ≤ s.push_cursor
      omega
    · show s.push_cursor = s.pop_cursor + 1 → s.cached_push = s.push_cursor
      omega
    · show s.push_cursor = s.pop_cursor + 1 + s.capacity → s.cached_pop = s.pop_cursor + 1
      omega
    · show l.length = s.push_cursor - (s.pop_cursor + 1)
      omega
    · exact hcontent

theorem fifo5_pop_empty [Inhabited α] (s : Fifo5State α) (hR : Fifo5.rel s []) :
    Fifo5.pop s = (none, s) := by
  obtain ⟨hring, hle, hcap, hcp, hcq, hde, hdf, hlen, hcont⟩ := hR
  simp only [List.length_nil] at hlen
  have hempty : s.push_cursor = s.pop_cursor := by omega
  have hexact : s.cached_push = s.push_cursor := hde hempty
  have hfast : s.cached_push ≤ s.pop_cursor := by omega
  have hrefresh : ({ s with cached_push := s.push_cursor } : Fifo5State α) = s := by
    obtain ⟨c, r, pc, cp, qc, cq⟩ := s
    simp only at hexact ⊢
    simp [hexact]
  rw [Fifo5.pop]
  simp only [if_pos hfast]
  rw [if_pos (by show s.push_cursor ≤ s.pop_cursor; omega), hrefresh]

/-- The Fifo5 implementation packaged with its abstraction relation. -/
def fifo5Sim (α : Type u) [Inhabited α] (cap : Nat) : QueueSim α (Fifo5State α) where
  pushF := fun v s => some (Fifo5.push v s)
  popF := fun s => some (Fifo5.pop s)
  R := fun s l => Fifo5.rel s l ∧ s.capacity = cap
  cap := cap
  len_le := by
    rintro s l ⟨⟨hring, hle, hcap, _, _, _, _, hlen, _⟩, hc⟩
    omega
  push_ok := by
    rintro s l v ⟨hR, hc⟩ hlt
    obtain ⟨s1, hp, hR1, hcpres⟩ := fifo5_push_ok s l v hR (by omega)
    exact ⟨s1, congrArg some hp, hR1, by omega⟩
  push_full := by
    rintro s l v ⟨hR, hc⟩ hlen
    exact congrArg some (fifo5_push_full s l v hR (by omega))
  pop_ok := by
    rintro s x l ⟨hR, hc⟩
    obtain ⟨s1, hp, hR1, hcpres⟩ := fifo5_pop_ok s x l hR
    exact ⟨s1, congrArg some hp, hR1, by omega⟩
  pop_empty := by
    rintro s ⟨hR, hc⟩
    exact congrArg some (fifo5_pop_empty s hR)

/-- Under the invariant, Fifo5 teardown destroys exactly the pending
items, in order, one destructor run each. -/
theorem fifo5_dropped_eq (s : Fifo5State α) (l : List α) (hR : Fifo5.rel s l) :
    Fifo5.dropped s = l.map some := by
  obtain ⟨hring, hle, hcap, hcp, hcq, hde, hdf, hlen, hcont⟩ := hR
  apply List.ext_getElem?
  intro i
  rcases Nat.lt_or_ge i l.length with hil | hig
  · have hcnt := hcont i hil
    have hi1 : i < (List.range' s.pop_cursor (s.push_cursor - s.pop_cursor)).length := by
      simp
      omega
    have hr1 : (List.range' s.pop_cursor (s.push_cursor - s.pop_cursor))[i]? =
        some (s.pop_cursor + i) := by
      rw [List.getElem?_eq_getElem hi1]
      simp [List.getElem_range']
    have hgl : l[i]? = some l[i] := List.getElem?_eq_getElem hil
    rw [Fifo5.dropped, List.getElem?_map, List.getElem?_map, hr1, hgl]
    show some (s.ring.getD ((s.pop_cursor + i) % s.capacity) none) = some (some l[i])
    rw [List.getD_eq_getElem?_getD, hcnt, hgl]
    rfl
  · have h1 : (Fifo5.dropped s).length = l.length := by
      simp [Fifo5.dropped]
      omega
    rw [List.getElem?_eq_none (by omega), List.getElem?_eq_none (by simp; omega)]

/-- A slot of the turn-based queue (src/fifo6a): an atomic turn counter
plus MaybeUninit storage for the item (none models unwritten bytes). -/
structure Slot6 (α : Type u) where
  turn : Nat
  data : Option α
deriving Repr, DecidableEq

instance : Inhabited (Slot6 α) := ⟨⟨0, none⟩⟩

/-- State of the turn-based queue (src/fifo6a): a ring of turn-stamped
slots plus the shared head (consumer) and tail (producer) counters. -/
structure Fifo6State (α : Type u) where
  capacity : Nat
  ring : List (Slot6 α)
  head : Nat
  tail : Nat
deriving Repr, DecidableEq

/-- The freshly constructed turn-based queue: slot i starts at turn i
with unwritten data, both counters 0. -/
def Fifo6.fresh (α : Type u) (capacity : Nat) : Fifo6State α :=
  { capacity := capacity,
    ring := (List.range capacity).map (fun i => { turn := i, data := none }),
    head := 0, tail := 0 }

/-- Fifo6::new asserts capacity.is_power_of_two(); none models that
panic.  There is no separate zero check: zero is not a power of two, so
it panics through the same assert. -/
def Fifo6.new (α : Type u) (capacity : Nat) : Option (Fifo6State α) :=
  if isPow2 capacity then some (Fifo6.fresh α capacity) else none

/-- One iteration of the retry loop of Fifo6::push, on a given state:
read tail (relaxed), index by tail & (capacity-1), read that slot's turn
(acquire) and branch on turn.wrapping_sub(tail) read as an isize.  Zero:
claim the slot (the CAS on tail always succeeds against an unchanged
counter in the single-threaded model), write the item and publish
turn = tail+1.  Negative (top bit set): the slot still holds the
previous lap's item, report full.  Positive: retry. -/
def Fifo6.pushStep (v : α) (s : Fifo6State α) : Option (Bool × Fifo6State α) :=
  let tail := s.tail
  let index := tail &&& (s.capacity - 1)
  let slot := s.ring.getD index default
  let diff := wsub slot.turn tail
  if diff = 0 then
    some (true, { s with
      ring := s.ring.set index { turn := (tail + 1) % W, data := some v }
      tail := (tail + 1) % W })
  else if HALF ≤ diff then some (false, s)
  else none

/-- Fifo6::push as a fuel-indexed retry loop.  A retry iteration re-reads
an unchanged state in the single-threaded model, so the loop either
resolves on its first iteration or never returns; none is the diverging
loop (every fuel bound exhausted). -/
def Fifo6.pushLoop (fuel : Nat) (v : α) (s : Fifo6State α) : Option (Bool × Fifo6State α) :=
  match fuel with
  | 0 => none
  | f + 1 =>
    match Fifo6.pushStep v s with
    | some r => some r
    | none => Fifo6.pushLoop f v s

/-- Fifo6::push in the single-threaded model: decided by the first loop
iteration; none models the loop retrying forever. -/
def Fifo6.push (v : α) (s : Fifo6State α) : Option (Bool × Fifo6State α) :=
  Fifo6.pushStep v s

/-- One iteration of the retry loop of Fifo6::pop: a slot is poppable
when its turn equals head+1 (wrapping diff zero); the CAS on head then
succeeds, the item is read out (assume_init of the slot bytes, modelled
by getD default; the bytes stay in the slot) and the slot's turn is
reset to head+capacity for the next lap.  Negative diff: empty.
Positive: retry. -/
def Fifo6.popStep [Inhabited α] (s : Fifo6State α) : Option (Option α × Fifo6State α) :=
  let head := s.head
  let index := head &&& (s.capacity - 1)
  let slot := s.ring.getD index default
  let diff := wsub slot.turn ((head + 1) % W)
  if diff = 0 then
    some (some (slot.data.getD default), { s with
      ring := s.ring.set index { turn := (head + s.capacity) % W, data := slot.data }
      head := (head + 1) % W })
  else if HALF ≤ diff then some (none, s)
  else none

/-- Fifo6::pop as a fuel-indexed retry loop; see pushLoop. -/
def Fifo6.popLoop [Inhabited α] (fuel : Nat) (s : Fifo6State α) : Option (Option α × Fifo6State α) :=
  match fuel with
  | 0 => none
  | f + 1 =>
    match Fifo6.popStep s with
    | some r => some r
    | none => Fifo6.popLoop f s

/-- Fifo6::pop in the single-threaded model. -/
def Fifo6.pop [Inhabited α] (s : Fifo6State α) : Option (Option α × Fifo6State α) :=
  Fifo6.popStep s

theorem fifo6_pushLoop_of_step (v : α) (s : Fifo6State α) (r : Bool × Fifo6State α)
    (h : Fifo6.pushStep v s = some r) (f : Nat) :
    Fifo6.pushLoop (f + 1) v s = some r := by
  simp [Fifo6.pushLoop, h]

theorem fifo6_pushLoop_of_retry (v : α) (s : Fifo6State α)
    (h : Fifo6.pushStep v s = none) : ∀ f, Fifo6.pushLoop f v s = none := by
  intro f
  induction f with
  | zero => rfl
  | succ f ih => simp [Fifo6.pushLoop, h, ih]

theorem fifo6_popLoop_of_step [Inhabited α] (s : Fifo6State α) (r : Option α × Fifo6State α)
    (h : Fifo6.popStep s = some r) (f : Nat) :
    Fifo6.popLoop (f + 1) s = some r := by
  simp [Fifo6.popLoop, h]

theorem fifo6_popLoop_of_retry [Inhabited α] (s : Fifo6State α)
    (h : Fifo6.popStep s = none) : ∀ f, Fifo6.popLoop f s = none := by
  intro f
  induction f with
  | zero => rfl
  | succ f ih => simp [Fifo6.popLoop, h, ih]

theorem wsub_self_mod (a : Nat) : wsub (a % W) (a % W) = 0 := by
  unfold wsub W
  omega

theorem wsub_eq_zero_iff {a b : Nat} (ha : a < W) (hb : b < W) : wsub a b = 0 ↔ a = b := by
  unfold wsub W at *
  omega

theorem wsub_full_neg (a cap : Nat) (h2 : 2 ≤ cap) (hh : cap ≤ HALF) :
    ¬ wsub ((a + 1) % W) ((a + cap) % W) = 0 ∧ HALF ≤ wsub ((a + 1) % W) ((a + cap) % W) := by
  unfold HALF at hh
  unfold wsub W HALF
  omega

theorem wsub_pred (a : Nat) :
    ¬ wsub (a % W) ((a % W + 1) % W) = 0 ∧ HALF ≤ wsub (a % W) ((a % W + 1) % W) := by
  unfold wsub W HALF
  omega

/-- Indexing by the bit mask capacity-1 is reduction mod capacity, for
power-of-two capacities. -/
theorem mask_eq_mod (x k : Nat) : x &&& (2 ^ k - 1) = x % 2 ^ k :=
  Nat.and_pow_two_sub_one_eq_mod x k

/-- Single-threaded reachability invariant of the turn-based queue, with
ghost totals: H pops and T pushes have completed so far; the stored head
and tail are those counters mod 2^64; the pending items l were pushed at
counters H..T-1, and the slot written at counter t holds turn (t+1) mod
2^64 while live; a slot not currently holding an item carries the turn
value of the next counter that will write it (its initial turn j, or
h+capacity stored by the pop at counter h), mod 2^64. -/
structure Fifo6Inv (s : Fifo6State α) (H T : Nat) (l : List α) : Prop where
  cap_pow : ∃ k, 1 ≤ k ∧ k ≤ 63 ∧ s.capacity = 2 ^ k
  ring_len : s.ring.length = s.capacity
  head_eq : s.head = H % W
  tail_eq : s.tail = T % W
  le_HT : H ≤ T
  le_cap : T ≤ H + s.capacity
  len_eq : l.length = T - H
  live : ∀ i, i < T - H → ∃ sl : Slot6 α, s.ring[(H + i) % s.capacity]? = some sl ∧
    sl.turn = (H + i + 1) % W ∧ sl.data = l[i]?
  free : ∀ j, j < s.capacity → (∀ i, i < T - H → (H + i) % s.capacity ≠ j) →
    ∃ sl : Slot6 α, s.ring[j]? = some sl ∧ sl.turn = nextTurn T s.capacity j % W

theorem fifo6inv_cap {s : Fifo6State α} {H T : Nat} {l : List α} (hI : Fifo6Inv s H T l) :
    2 ≤ s.capacity ∧ s.capacity ≤ HALF ∧ s.capacity ∣ W := by
  obtain ⟨k, hk1, hk63, hce⟩ := hI.cap_pow
  have h2 : (2:Nat) ^ 1 ≤ 2 ^ k := Nat.pow_le_pow_right (by norm_num) hk1
  have hh : (2:Nat) ^ k ≤ 2 ^ 63 := Nat.pow_le_pow_right (by norm_num) hk63
  have hdvd : (2:Nat) ^ k ∣ 2 ^ 64 := pow_dvd_pow 2 (by omega)
  have hW : W = (2:Nat) ^ 64 := by norm_num [W]
  have hH : HALF = (2:Nat) ^ 63 := by norm_num [HALF]
  rw [hce, hW, hH]
  exact ⟨by omega, hh, hdvd⟩

/-- A set at one ring index leaves other indices unchanged. -/
theorem lget_set_ne {β : Type u} (rg : List β) (a b : Nat) (x : β) (h : a ≠ b) :
    (rg.set a x)[b]? = rg[b]? := by
  simp [List.getElem?_set, h]

theorem fifo6_fresh_inv (α : Type u) (k : Nat) (hk1 : 1 ≤ k) (hk63 : k ≤ 63) :
    Fifo6Inv (Fifo6.fresh α (2 ^ k)) 0 0 [] := by
  have hc0 : 0 < 2 ^ k := Nat.pos_pow_of_pos k (by norm_num)
  have hcH : (2:Nat) ^ k ≤ 2 ^ 63 := Nat.pow_le_pow_right (by norm_num) hk63
  refine ⟨⟨k, hk1, hk63, rfl⟩, by simp [Fifo6.fresh], rfl, rfl, le_rfl,
    by simp [Fifo6.fresh], rfl, ?_, ?_⟩
  · intro i hi
    omega
  · intro j hj _
    simp only [Fifo6.fresh] at hj
    refine ⟨{ turn := j, data := none }, ?_, ?_⟩
    · show ((List.range (2 ^ k)).map (fun i => ({ turn := i, data := none } : Slot6 α)))[j]? = _
      rw [List.getElem?_map]
      rw [List.getElem?_eq_getElem (by simpa using hj)]
      simp [List.getElem_range]
    · show j = nextTurn 0 (2 ^ k) j % W
      have hnt : j = nextTurn 0 (2 ^ k) j :=
        nextTurn_unique hc0 hj (Nat.zero_le j) (by omega) (Nat.mod_eq_of_lt hj)
      rw [← hnt]
      have : j < W := by
        have : (2:Nat) ^ 63 < W := by norm_num [W]
        omega
      exact (Nat.mod_eq_of_lt this).symm

/-- Bit-mask indexing under the invariant is mod capacity. -/
theorem fifo6_mask {s : Fifo6State α} {H T : Nat} {l : List α} (hI : Fifo6Inv s H T l)
    (x : Nat) : x &&& (s.capacity - 1) = x % s.capacity := by
  obtain ⟨k, _, _, hce⟩ := hI.cap_pow
  rw [hce]
  exact mask_eq_mod x k

theorem fifo6_push_ok (s : Fifo6State α) (H T : Nat) (l : List α) (v : α)
    (hI : Fifo6Inv s H T l) (hlt : l.length < s.capacity) :
    Fifo6.pushStep v s = some (true, { s with
      ring := s.ring.set (T % s.capacity) { turn := (T + 1) % W, data := some v }
      tail := (T + 1) % W }) ∧
    Fifo6Inv { s with
      ring := s.ring.set (T % s.capacity) { turn := (T + 1) % W, data := some v }
      tail := (T + 1) % W } H (T + 1) (l ++ [v]) := by
  obtain ⟨hc2, hcH, hdvd⟩ := fifo6inv_cap hI
  have hc0 : 0 < s.capacity := by omega
  have hTH : T - H < s.capacity := by have := hI.len_eq; omega
  have hHT2 := hI.le_HT
  have hjlt : T % s.capacity < s.capacity := Nat.mod_lt _ hc0
  have hfree_idx : ∀ i, i < T - H → (H + i) % s.capacity ≠ T % s.capacity := by
    intro i hi
    exact mod_ne_window hc0 (by omega) (by omega)
  obtain ⟨sl, hsl, hturn⟩ := hI.free (T % s.capacity) hjlt hfree_idx
  have hnt : nextTurn T s.capacity (T % s.capacity) = T :=
    (nextTurn_unique hc0 hjlt le_rfl (by omega) rfl).symm
  rw [hnt] at hturn
  have hmask : s.tail &&& (s.capacity - 1) = T % s.capacity := by
    rw [hI.tail_eq, fifo6_mask hI, Nat.mod_mod_of_dvd T hdvd]
  have hgetD : s.ring.getD (T % s.capacity) default = sl := by
    rw [List.getD_eq_getElem?_getD, hsl]
    rfl
  have hdiff : wsub sl.turn s.tail = 0 := by
    rw [hturn, hI.tail_eq]
    exact wsub_self_mod T
  have hlen2 := hI.len_eq
  constructor
  · simp only [Fifo6.pushStep, hmask, hgetD, hdiff]
    simp only [if_true, hI.tail_eq, Nat.mod_add_mod]
  · refine ⟨hI.cap_pow, by simp [hI.ring_len], hI.head_eq, rfl, by omega, ?_, ?_, ?_, ?_⟩
    · show T + 1 ≤ H + s.capacity
      omega
    · show (l ++ [v]).length = T + 1 - H
      simp
      omega
    · intro i hi
      rcases Nat.lt_or_ge i (T - H) with hilt | hige
      · obtain ⟨sli, hsli, hti, hdi⟩ := hI.live i hilt
        refine ⟨sli, ?_, hti, ?_⟩
        · show (s.ring.set (T % s.capacity) _)[(H + i) % s.capacity]? = some sli
          rw [lget_set_ne _ _ _ _ (hfree_idx i hilt).symm]
          exact hsli
        · rw [hdi, List.getElem?_append_left (by have := hI.len_eq; omega)]
      · have hieq : i = T - H := by omega
        subst hieq
        have hHT3 : H + (T - H) = T := by omega
        refine ⟨{ turn := (T + 1) % W, data := some v }, ?_, ?_, ?_⟩
        · show (s.ring.set (T % s.capacity) _)[(H + (T - H)) % s.capacity]? = _
          rw [hHT3]
          exact List.getElem?_set_self (by rw [hI.ring_len]; exact hjlt)
        · show (T + 1) % W = (H + (T - H) + 1) % W
          rw [hHT3]
        · show some v = (l ++ [v])[T - H]?
          have hlen2 : l.length = T - H := hI.len_eq
          rw [← hlen2, List.getElem?_concat_length]
    · intro j hj hfr
      have hjne : T % s.capacity ≠ j := by
        have h := hfr (T - H) (by omega)
        rwa [show H + (T - H) = T from by omega] at h
      obtain ⟨slf, hslf, htf⟩ := hI.free j hj (fun i hi => hfr i (by omega))
      refine ⟨slf, ?_, ?_⟩
      · show (s.ring.set (T % s.capacity) _)[j]? = some slf
        rw [lget_set_ne _ _ _ _ hjne]
        exact hslf
      · rw [htf]
        have h1 : nextTurn T s.capacity j % s.capacity = j := nextTurn_mod T hc0 hj
        have hge := nextTurn_ge T s.capacity j
        have hlt2 := nextTurn_lt T j hc0
        have hneT : nextTurn T s.capacity j ≠ T := by
          intro he
          apply hjne
          rw [← he]
          exact h1
        have heq2 : nextTurn T s.capacity j = nextTurn (T + 1) s.capacity j :=
          nextTurn_unique hc0 hj (by omega) (by omega) h1
        rw [heq2]

theorem fifo6_push_full (s : Fifo6State α) (H T : Nat) (l : List α) (v : α)
    (hI : Fifo6Inv s H T l) (hlen : l.length = s.capacity) :
    Fifo6.pushStep v s = some (false, s) := by
  obtain ⟨hc2, hcH, hdvd⟩ := fifo6inv_cap hI
  have hc0 : 0 < s.capacity := by omega
  have hTfull : T = H + s.capacity := by have := hI.len_eq; have := hI.le_cap; omega
  obtain ⟨sl, hsl, hturn, hdata⟩ := hI.live 0 (by omega)
  have hmask : s.tail &&& (s.capacity - 1) = T % s.capacity := by
    rw [hI.tail_eq, fifo6_mask hI, Nat.mod_mod_of_dvd T hdvd]
  have hidx : T % s.capacity = H % s.capacity := by
    rw [hTfull, Nat.add_mod_right]
  have hsl0 : s.ring[H % s.capacity]? = some sl := by
    have := hsl
    rwa [Nat.add_zero] at this
  have hgetD : s.ring.getD (T % s.capacity) default = sl := by
    rw [hidx, List.getD_eq_getElem?_getD, hsl0]
    rfl
  have hturn0 : sl.turn = (H + 1) % W := by
    rw [hturn, Nat.add_zero]
  have hdiffs := wsub_full_neg H s.capacity hc2 hcH
  have hdiff1 : ¬ wsub sl.turn s.tail = 0 := by
    rw [hturn0, hI.tail_eq, hTfull]
    exact hdiffs.1
  have hdiff2 : HALF ≤ wsub sl.turn s.tail := by
    rw [hturn0, hI.tail_eq, hTfull]
    exact hdiffs.2
  simp only [Fifo6.pushStep, hmask, hgetD]
  rw [if_neg hdiff1, if_pos hdiff2]

theorem fifo6_pop_ok [Inhabited α] (s : Fifo6State α) (H T : Nat) (x : α) (l2 : List α)
    (hI : Fifo6Inv s H T (x :: l2)) :
    Fifo6.popStep s = some (some x, { s with
      ring := s.ring.set (H % s.capacity) { turn := (H + s.capacity) % W, data := some x }
      head := (H + 1) % W }) ∧
    Fifo6Inv { s with
      ring := s.ring.set (H % s.capacity) { turn := (H + s.capacity) % W, data := some x }
      head := (H + 1) % W } (H + 1) T l2 := by
  obtain ⟨hc2, hcH, hdvd⟩ := fifo6inv_cap hI
  have hc0 : 0 < s.capacity := by omega
  have hlen2 : l2.length + 1 = T - H := by have := hI.len_eq; simpa using this
  have hHT2 := hI.le_HT
  have hcap2 := hI.le_cap
  have hHltT : H < T := by omega
  have hidx : H % s.capacity < s.capacity := Nat.mod_lt _ hc0
  obtain ⟨sl, hsl, hturn, hdata⟩ := hI.live 0 (by omega)
  have hsl0 : s.ring[H % s.capacity]? = some sl := by
    have h := hsl
    rwa [Nat.add_zero] at h
  have hturn0 : sl.turn = (H + 1) % W := by
    rw [hturn, Nat.add_zero]
  have hdata0 : sl.data = some x := by
    rw [hdata]
    simp
  have hmask : s.head &&& (s.capacity - 1) = H % s.capacity := by
    rw [hI.head_eq, fifo6_mask hI, Nat.mod_mod_of_dvd H hdvd]
  have hgetD : s.ring.getD (H % s.capacity) default = sl := by
    rw [List.getD_eq_getElem?_getD, hsl0]
    rfl
  have hcmp : (s.head + 1) % W = (H + 1) % W := by
    rw [hI.head_eq, Nat.mod_add_mod]
  have hdiff : wsub sl.turn ((s.head + 1) % W) = 0 := by
    rw [hturn0, hcmp]
    have h := wsub_self_mod (H + 1)
    exact h
  constructor
  · simp only [Fifo6.popStep, hmask, hgetD, hdiff]
    simp only [if_true, hdata0, Option.getD_some, hI.head_eq, Nat.mod_add_mod]
  · refine ⟨hI.cap_pow, by simp [hI.ring_len], rfl, hI.tail_eq, ?_, ?_, ?_, ?_, ?_⟩
    · show H + 1 ≤ T
      omega
    · show T ≤ H + 1 + s.capacity
      omega
    · show l2.length = T - (H + 1)
      omega
    · intro i hi
      obtain ⟨sli, hsli, hti, hdi⟩ := hI.live (i + 1) (by omega)
    
      have hne : H % s.capacity ≠ (H + (i + 1)) % s.capacity :=
        mod_ne_window hc0 (by omega) (by omega)
      refine ⟨sli, ?_, ?_, ?_⟩
      · show (s.ring.set (H % s.capacity) _)[(H + 1 + i) % s.capacity]? = some sli
        have he : H + 1 + i = H + (i + 1) := by omega
        rw [he, lget_set_ne _ _ _ _ hne]
        exact hsli
      · show sli.turn = (H + 1 + i + 1) % W
        rw [hti]
        have he : H + (i + 1) + 1 = H + 1 + i + 1 := by omega
        rw [he]
      · show sli.data = l2[i]?
        rw [hdi]
        simp
    · intro j hj hfr
      by_cases hjH : j = H % s.capacity
      · subst hjH
        refine ⟨{ turn := (H + s.capacity) % W, data := some x }, ?_, ?_⟩
        · exact List.getElem?_set_self (by rw [hI.ring_len]; exact hidx)
        · show (H + s.capacity) % W = nextTurn T s.capacity (H % s.capacity) % W
          have heq : H + s.capacity = nextTurn T s.capacity (H % s.capacity) :=
            nextTurn_unique hc0 hidx (by omega) (by omega) (Nat.add_mod_right H s.capacity)
          rw [← heq]
      · have hold : ∀ i, i < T - H → (H + i) % s.capacity ≠ j := by
          intro i hi
          rcases Nat.eq_zero_or_pos i with h0 | hpos
          · subst h0
            rw [Nat.add_zero]
            exact fun h => hjH h.symm
          · have he : H + i = H + 1 + (i - 1) := by omega
            rw [he]
            exact hfr (i - 1) (by omega)
        obtain ⟨slf, hslf, htf⟩ := hI.free j hj hold
        refine ⟨slf, ?_, htf⟩
        show (s.ring.set (H % s.capacity) _)[j]? = some slf
        rw [lget_set_ne _ _ _ _ (fun h => hjH h.symm)]
        exact hslf

theorem fifo6_pop_empty [Inhabited α] (s : Fifo6State α) (H T : Nat)
    (hI : Fifo6Inv s H T []) :
    Fifo6.popStep s = some (none, s) := by
  obtain ⟨hc2, hcH, hdvd⟩ := fifo6inv_cap hI
  have hc0 : 0 < s.capacity := by omega
  have hHT : H = T := by
    have hl0 := hI.len_eq
    have hle := hI.le_HT
    simp at hl0
    omega
  have hidx : T % s.capacity < s.capacity := Nat.mod_lt _ hc0
  obtain ⟨sl, hsl, hturn⟩ := hI.free (T % s.capacity) hidx (by intro i hi; omega)
  have hnt : nextTurn T s.capacity (T % s.capacity) = T :=
    (nextTurn_unique hc0 hidx le_rfl (by omega) rfl).symm
  rw [hnt] at hturn
  have hmask : s.head &&& (s.capacity - 1) = T % s.capacity := by
    rw [hI.head_eq, hHT, fifo6_mask hI, Nat.mod_mod_of_dvd T hdvd]
  have hgetD : s.ring.getD (T % s.capacity) default = sl := by
    rw [List.getD_eq_getElem?_getD, hsl]
    rfl
  have hd := wsub_pred T
  have hdiff1 : ¬ wsub sl.turn ((s.head + 1) % W) = 0 := by
    rw [hturn, hI.head_eq, hHT]
    exact hd.1
  have hdiff2 : HALF ≤ wsub sl.turn ((s.head + 1) % W) := by
    rw [hturn, hI.head_eq, hHT]
    exact hd.2
  simp only [Fifo6.popStep, hmask, hgetD]
  rw [if_neg hdiff1, if_pos hdiff2]

/-- The Fifo6 implementation, for capacity 2^k with 1 ≤ k ≤ 63, packaged
with its abstraction relation (existentially quantified ghost totals). -/
def fifo6Sim (α : Type u) [Inhabited α] (k : Nat) :
    QueueSim α (Fifo6State α) where
  pushF := Fifo6.push
  popF := Fifo6.pop
  R := fun s l => (∃ H T, Fifo6Inv s H T l) ∧ s.capacity = 2 ^ k
  cap := 2 ^ k
  len_le := by
    rintro s l ⟨⟨H, T, hI⟩, hc⟩
    have h1 := hI.len_eq
    have h2 := hI.le_cap
    have h3 := hI.le_HT
    omega
  push_ok := by
    rintro s l v ⟨⟨H, T, hI⟩, hc⟩ hlt
    obtain ⟨hp, hI1⟩ := fifo6_push_ok s H T l v hI (by omega)
    exact ⟨_, hp, ⟨H, T + 1, hI1⟩, hc⟩
  push_full := by
    rintro s l v ⟨⟨H, T, hI⟩, hc⟩ hlen
    exact fifo6_push_full s H T l v hI (by omega)
  pop_ok := by
    rintro s x l ⟨⟨H, T, hI⟩, hc⟩
    obtain ⟨hp, hI1⟩ := fifo6_pop_ok s H T x l hI
    exact ⟨_, hp, ⟨H + 1, T, hI1⟩, hc⟩
  pop_empty := by
    rintro s ⟨⟨H, T, hI⟩, hc⟩
    exact fifo6_pop_empty s H T hI

/-- Generic bounded-capacity behaviour (claim C2 pattern): from a fresh
queue, cap pushes all succeed, the next push fails leaving the state
unchanged, then one pop yields the oldest item and the next push
succeeds. -/
theorem queue_c2 {α : Type u} {σ : Type v} (Q : QueueSim α σ) (s0 : σ) (h0 : Q.R s0 [])
    (vs : List α) (hlen : vs.length = Q.cap) (hpos : 1 ≤ Q.cap) (w y : α) :
    ∃ sC x vs2 sD sE, vs = x :: vs2 ∧
      runQ Q.pushF Q.popF s0 (vs.map Op.push) = some (sC, [], vs) ∧
      Q.pushF w sC = some (false, sC) ∧
      Q.popF sC = some (some x, sD) ∧
      Q.pushF y sD = some (true, sE) := by
  obtain ⟨sC, hrun, hRC⟩ := runQ_pushes Q vs s0 [] h0 (by simp [hlen])
  cases vs with
  | nil =>
    simp at hlen
    omega
  | cons x vs2 =>
    have hRC2 : Q.R sC (x :: vs2) := by simpa using hRC
    have hfull := Q.push_full sC (x :: vs2) w hRC2 (by simpa using hlen)
    obtain ⟨sD, hpop, hRD⟩ := Q.pop_ok sC x vs2 hRC2
    obtain ⟨sE, hpush2, _⟩ := Q.push_ok sD vs2 y hRD (by simp at hlen; omega)
    exact ⟨sC, x, vs2, sD, sE, rfl, hrun, hfull, hpop, hpush2⟩

/-- Generic round-trip (claim C9 pattern): a push on an empty queue
succeeds and the immediately following pop returns the pushed value. -/
theorem queue_roundtrip {α : Type u} {σ : Type v} (Q : QueueSim α σ) (s : σ)
    (hR : Q.R s []) (v : α) (hpos : 1 ≤ Q.cap) :
    ∃ s1 s2, Q.pushF v s = some (true, s1) ∧ Q.popF s1 = some (some v, s2) := by
  obtain ⟨s1, hp, hR1⟩ := Q.push_ok s [] v hR (by simpa using hpos)
  obtain ⟨s2, hq, _⟩ := Q.pop_ok s1 v [] (by simpa using hR1)
  exact ⟨s1, s2, hp, hq⟩

theorem runQ_append {α : Type u} {σ : Type v} (pushF : α → σ → Option (Bool × σ))
    (popF : σ → Option (Option α × σ)) (as bs : List (Op α)) :
    ∀ s s1 p1 q1, runQ pushF popF s as = some (s1, p1, q1) →
    runQ pushF popF s (as ++ bs) =
      (runQ pushF popF s1 bs).map (fun r => (r.1, p1 ++ r.2.1, q1 ++ r.2.2)) := by
  induction as with
  | nil =>
    intro s s1 p1 q1 h
    simp [runQ] at h
    obtain ⟨rfl, rfl, rfl⟩ := h
    simp only [List.nil_append]
    cases hb : runQ pushF popF s bs with
    | none => simp
    | some r3 =>
      obtain ⟨s3, p3, q3⟩ := r3
      simp
  | cons op as ih =>
    intro s s1 p1 q1 h
    cases op with
    | push v =>
      rw [List.cons_append]
      rw [runQ] at h ⊢
      cases hp : pushF v s with
      | none =>
        rw [hp] at h
        simp at h
      | some r =>
        obtain ⟨b, s2⟩ := r
        rw [hp] at h
        have h2 : (match runQ pushF popF s2 as with
            | none => none
            | some (sf2, popped, pushedOk) =>
              some (sf2, popped, if b then v :: pushedOk else pushedOk)) =
            some (s1, p1, q1) := h
        cases hr : runQ pushF popF s2 as with
        | none =>
          rw [hr] at h2
          simp at h2
        | some r2 =>
          obtain ⟨sf, pp, qq⟩ := r2
          rw [hr] at h2
          simp at h2
          obtain ⟨rfl, rfl, rfl⟩ := h2
          show (match runQ pushF popF s2 (as ++ bs) with
            | none => none
            | some (sf2, popped, pushedOk) =>
              some (sf2, popped, if b then v :: pushedOk else pushedOk)) = _
          rw [ih s2 sf pp qq hr]
          cases hb : runQ pushF popF sf bs with
          | none => simp
          | some r3 =>
            obtain ⟨s3, p3, q3⟩ := r3
            cases b <;> simp
    | pop =>
      rw [List.cons_append]
      rw [runQ] at h ⊢
      cases hp : popF s with
      | none =>
        rw [hp] at h
        simp at h
      | some r =>
        obtain ⟨r0, s2⟩ := r
        rw [hp] at h
        cases r0 with
        | none =>
          have h2 : (match runQ pushF popF s2 as with
              | none => none
              | some (sf2, popped, pushedOk) => some (sf2, popped, pushedOk)) =
              some (s1, p1, q1) := h
          cases hr : runQ pushF popF s2 as with
          | none =>
            rw [hr] at h2
            simp at h2
          | some r2 =>
            obtain ⟨sf, pp, qq⟩ := r2
            rw [hr] at h2
            simp at h2
            obtain ⟨rfl, rfl, rfl⟩ := h2
            show (match runQ pushF popF s2 (as ++ bs) with
              | none => none
              | some (sf2, popped, pushedOk) => some (sf2, popped, pushedOk)) = _
            rw [ih s2 sf pp qq hr]
            cases hb : runQ pushF popF sf bs with
            | none => simp
            | some r3 =>
              obtain ⟨s3, p3, q3⟩ := r3
              simp
        | some x =>
          have h2 : (match runQ pushF popF s2 as with
              | none => none
              | some (sf2, popped, pushedOk) => some (sf2, x :: popped, pushedOk)) =
              some (s1, p1, q1) := h
          cases hr : runQ pushF popF s2 as with
          | none =>
            rw [hr] at h2
            simp at h2
          | some r2 =>
            obtain ⟨sf, pp, qq⟩ := r2
            rw [hr] at h2
            simp at h2
            obtain ⟨rfl, rfl, rfl⟩ := h2
            show (match runQ pushF popF s2 (as ++ bs) with
              | none => none
              | some (sf2, popped, pushedOk) => some (sf2, x :: popped, pushedOk)) = _
            rw [ih s2 sf pp qq hr]
            cases hb : runQ pushF popF sf bs with
            | none => simp
            | some r3 =>
              obtain ⟨s3, p3, q3⟩ := r3
              simp

/-- On a capacity-1 turn-based queue whose single slot's turn equals the
tail, a push always succeeds, overwriting the slot. -/
theorem fifo6_cap1_push (hd a : Nat) (d : Option Nat) (v : Nat) :
    Fifo6.push v { capacity := 1, ring := [{ turn := a % W, data := d }], head := hd, tail := a % W } =
    some (true, { capacity := 1, ring := [{ turn := (a + 1) % W, data := some v }], head := hd, tail := (a + 1) % W }) := by
  simp [Fifo6.push, Fifo6.pushStep, Nat.and_zero, wsub_self_mod, Nat.mod_add_mod]

/-- With capacity 1, n+1 consecutive pushes of the values a..a+n all
succeed; the single slot ends holding the last value with turn
(a+n+1) mod 2^64 and nothing is ever reported full. -/
theorem fifo6_cap1_pushes (hd : Nat) :
    ∀ (n a : Nat) (d : Option Nat),
      runQ Fifo6.push Fifo6.pop
        { capacity := 1, ring := [{ turn := a % W, data := d }], head := hd, tail := a % W }
        ((List.range' a (n + 1)).map Op.push) =
      some ({ capacity := 1, ring := [{ turn := (a + n + 1) % W, data := some (a + n) }], head := hd, tail := (a + n + 1) % W }, [], List.range' a (n + 1)) := by
  intro n
  induction n with
  | zero =>
    intro a d
    rw [List.range'_one, List.map_cons, List.map_nil, runQ, fifo6_cap1_push]
    show (match runQ Fifo6.push Fifo6.pop
        { capacity := 1, ring := [{ turn := (a + 1) % W, data := some a }], head := hd, tail := (a + 1) % W }
        ([] : List (Op Nat)) with
      | none => none
      | some (sf, popped, pushedOk) =>
        some (sf, popped, if true then a :: pushedOk else pushedOk)) = _
    rw [runQ]
    simp [List.range'_one]
  | succ n ih =>
    intro a d
    rw [List.range'_succ, List.map_cons, runQ, fifo6_cap1_push]
    have e : a + (n + 1) = a + 1 + n := by omega
    rw [e]
    have hred := ih (a + 1) (some a)
    simp [hred]

/-- Option-typed wrapper of Fifo2::push for the uniform trace semantics:
the call always returns. -/
def Fifo2.pushO (v : α) (s : Fifo2State α) : Option (Bool × Fifo2State α) :=
  some (Fifo2.push v s)

/-- Option-typed wrapper of Fifo2::pop. -/
def Fifo2.popO (s : Fifo2State α) : Option (Option α × Fifo2State α) :=
  some (Fifo2.pop s)

/-- Option-typed wrapper of Fifo3::push. -/
def Fifo3.pushO (v : α) (s : Fifo3State α) : Option (Bool × Fifo3State α) :=
  some (Fifo3.push v s)

/-- Option-typed wrapper of Fifo3::pop. -/
def Fifo3.popO (s : Fifo3State α) : Option (Option α × Fifo3State α) :=
  some (Fifo3.pop s)

/-- Option-typed wrapper of Fifo4::push. -/
def Fifo4.pushO (v : α) (s : Fifo4State α) : Option (Bool × Fifo4State α) :=
  some (Fifo4.push v s)

/-- Option-typed wrapper of Fifo4::pop. -/
def Fifo4.popO (s : Fifo4State α) : Option (Option α × Fifo4State α) :=
  some (Fifo4.pop s)

/-- Option-typed wrapper of Fifo5::push. -/
def Fifo5.pushO (v : α) (s : Fifo5State α) : Option (Bool × Fifo5State α) :=
  some (Fifo5.push v s)

/-- Option-typed wrapper of Fifo5::pop. -/
def Fifo5.popO [Inhabited α] (s : Fifo5State α) : Option (Option α × Fifo5State α) :=
  some (Fifo5.pop s)

/-- C5: the claim that every variant's constructor fails on capacity zero
is false: Fifo1::new(0) performs no capacity check, returns normally with
an empty ring, and the resulting queue silently rejects every push and
returns none from every pop (a degraded queue). -/
theorem spec_c5_counterexample :
    Fifo1.new Nat 0 =
      { capacity := 0, ring := [], push_cursor := 0, pop_cursor := 0 } ∧
    Fifo1.push 5 (Fifo1.new Nat 0) = some (false, Fifo1.new Nat 0) ∧
    Fifo1.pop (Fifo1.new Nat 0) = some (none, Fifo1.new Nat 0) := by
  refine ⟨rfl, rfl, rfl⟩

/-- C5 (amended): only the turn-based variant checks its capacity at
construction: Fifo6::new panics exactly when the capacity is not a power
of two (zero is not a power of two, so zero capacity panics there);
Fifo1..Fifo5 accept any capacity, including zero, where the returned
queue fails every push and empties every pop. -/
theorem spec_c5_construction :
    (∀ (α : Type u) (c : Nat),
      (Fifo6.new α c = none ↔ isPow2 c = false) ∧
      (isPow2 c = true → Fifo6.new α c = some (Fifo6.fresh α c))) ∧
    Fifo6.new Nat 0 = none ∧
    Fifo6.new Nat 1 = some (Fifo6.fresh Nat 1) ∧
    (∀ (α : Type u) (v : α),
      Fifo1.push v (Fifo1.new α 0) = some (false, Fifo1.new α 0) ∧
      Fifo1.pop (Fifo1.new α 0) = some (none, Fifo1.new α 0)) ∧
    (∀ (α : Type u) (v : α),
      Fifo2.push v (Fifo2.new α 0) = (false, Fifo2.new α 0) ∧
      Fifo2.pop (Fifo2.new α 0) = (none, Fifo2.new α 0)) ∧
    (∀ (α : Type u) (v : α),
      Fifo3.push v (Fifo3.new α 0) = (false, Fifo3.new α 0) ∧
      Fifo3.pop (Fifo3.new α 0) = (none, Fifo3.new α 0)) ∧
    (∀ (α : Type u) (v : α),
      Fifo4.push v (Fifo4.new α 0) = (false, Fifo4.new α 0) ∧
      Fifo4.pop (Fifo4.new α 0) = (none, Fifo4.new α 0)) ∧
    (∀ (α : Type u) [Inhabited α] (v : α),
      Fifo5.push v (Fifo5.new α 0) = (false, Fifo5.new α 0) ∧
      Fifo5.pop (Fifo5.new α 0) = (none, Fifo5.new α 0)) := by
  refine ⟨?_, ?_, ?_, ?_, ?_, ?_, ?_, ?_⟩
  · intro α c
    constructor
    · constructor
      · intro h
        by_contra hc
        simp at hc
        simp [Fifo6.new, hc] at h
      · intro h
        simp [Fifo6.new, h]
    · intro h
      simp [Fifo6.new, h]
  · rfl
  · rfl
  · intro α v
    exact ⟨rfl, rfl⟩
  · intro α v
    exact ⟨rfl, rfl⟩
  · intro α v
    exact ⟨rfl, rfl⟩
  · intro α v
    exact ⟨rfl, rfl⟩
  · intro α _ v
    exact ⟨rfl, rfl⟩

/-- C5 witness: the conditional branch of the amended theorem at a
concrete power-of-two capacity. -/
theorem spec_c5_witness :
    isPow2 2 = true ∧ Fifo6.new Nat 2 = some (Fifo6.fresh Nat 2) :=
  ⟨by decide, (spec_c5_construction.1 Nat 2).2 (by decide)⟩

/-- C8: the claim that every variant's size aborts when the pop cursor
exceeds the push cursor is false: Fifo2::size contains no assert and
returns the degraded value 0 normally on such a state. -/
theorem spec_c8_counterexample :
    (({ capacity := 1, ring := [none], push_cursor := 0, pop_cursor := 1 } :
        Fifo2State Nat)).push_cursor <
      (({ capacity := 1, ring := [none], push_cursor := 0, pop_cursor := 1 } :
        Fifo2State Nat)).pop_cursor ∧
    Fifo2.size ({ capacity := 1, ring := [none], push_cursor := 0, pop_cursor := 1 } :
      Fifo2State Nat) = some 0 := by
  exact ⟨by decide, rfl⟩

/-- C8 (amended): only the baseline variant treats a pop cursor above the
push cursor as unrecoverable: Fifo1::size asserts push >= pop and aborts
on violation; Fifo2::size clamps the difference to 0 and returns
normally. -/
theorem spec_c8_size_assert :
    (∀ (α : Type u) (s : Fifo1State α), s.push_cursor < s.pop_cursor →
      Fifo1.size s = none) ∧
    (∀ (α : Type u) (s : Fifo1State α), s.pop_cursor ≤ s.push_cursor →
      Fifo1.size s = some (s.push_cursor - s.pop_cursor)) ∧
    (∀ (α : Type u) (s : Fifo2State α), s.push_cursor < s.pop_cursor →
      Fifo2.size s = some 0) := by
  refine ⟨?_, ?_, ?_⟩
  · intro α s h
    simp [Fifo1.size]
    omega
  · intro α s h
    simp [Fifo1.size, h]
  · intro α s h
    simp [Fifo2.size, h]

/-- C8 witness: the amended theorem applied at concrete corrupt and
healthy states. -/
theorem spec_c8_witness :
    (({ capacity := 1, ring := [none], push_cursor := 0, pop_cursor := 2 } :
        Fifo1State Nat)).push_cursor <
      (({ capacity := 1, ring := [none], push_cursor := 0, pop_cursor := 2 } :
        Fifo1State Nat)).pop_cursor ∧
    Fifo1.size ({ capacity := 1, ring := [none], push_cursor := 0, pop_cursor := 2 } :
      Fifo1State Nat) = none :=
  ⟨by decide, spec_c8_size_assert.1 Nat _ (by decide)⟩

/-- C4: in the shadow-cursor-cached variants Fifo4 and Fifo5, the
producer's cached copy of the pop cursor stays at most the true pop
cursor and the consumer's cached copy of the push cursor stays at most
the true push cursor, under every push and pop; consequently a push
never reports success when the queue is truly full and a pop never
reports an item when the queue is truly empty. -/
theorem spec_c4_shadow_conservative :
    (∀ (α : Type u) (s : Fifo4State α) (v : α),
      s.cached_pop ≤ s.pop_cursor → s.cached_push ≤ s.push_cursor →
      (Fifo4.push v s).2.cached_pop ≤ (Fifo4.push v s).2.pop_cursor ∧
      (Fifo4.push v s).2.cached_push ≤ (Fifo4.push v s).2.push_cursor) ∧
    (∀ (α : Type u) (s : Fifo4State α),
      s.cached_pop ≤ s.pop_cursor → s.cached_push ≤ s.push_cursor →
      (Fifo4.pop s).2.cached_pop ≤ (Fifo4.pop s).2.pop_cursor ∧
      (Fifo4.pop s).2.cached_push ≤ (Fifo4.pop s).2.push_cursor) ∧
    (∀ (α : Type u) (s : Fifo4State α) (v : α), s.cached_pop ≤ s.pop_cursor →
      (Fifo4.push v s).1 = true → s.push_cursor < s.pop_cursor + s.capacity) ∧
    (∀ (α : Type u) (s : Fifo4State α), s.cached_push ≤ s.push_cursor →
      (Fifo4.pop s).1.isSome = true → s.pop_cursor < s.push_cursor) ∧
    (∀ (α : Type u) (s : Fifo5State α) (v : α),
      s.cached_pop ≤ s.pop_cursor → s.cached_push ≤ s.push_cursor →
      (Fifo5.push v s).2.cached_pop ≤ (Fifo5.push v s).2.pop_cursor ∧
      (Fifo5.push v s).2.cached_push ≤ (Fifo5.push v s).2.push_cursor) ∧
    (∀ (α : Type u) [Inhabited α] (s : Fifo5State α),
      s.cached_pop ≤ s.pop_cursor → s.cached_push ≤ s.push_cursor →
      (Fifo5.pop s).2.cached_pop ≤ (Fifo5.pop s).2.pop_cursor ∧
      (Fifo5.pop s).2.cached_push ≤ (Fifo5.pop s).2.push_cursor) ∧
    (∀ (α : Type u) (s : Fifo5State α) (v : α), s.cached_pop ≤ s.pop_cursor →
      (Fifo5.push v s).1 = true → s.push_cursor < s.pop_cursor + s.capacity) ∧
    (∀ (α : Type u) [Inhabited α] (s : Fifo5State α), s.cached_push ≤ s.push_cursor →
      (Fifo5.pop s).1.isSome = true → s.pop_cursor < s.push_cursor) := by
  refine ⟨?_, ?_, ?_, ?_, ?_, ?_, ?_, ?_⟩
  · intro α s v h1 h2
    by_cases hf : s.cached_pop + s.capacity ≤ s.push_cursor
    · by_cases hg : s.pop_cursor + s.capacity ≤ s.push_cursor
      · simp [Fifo4.push, Fifo4.pushTo, hf, hg]
        omega
      · simp [Fifo4.push, Fifo4.pushTo, hf, hg]
        omega
    · simp [Fifo4.push, Fifo4.pushTo, hf]
      omega
  · intro α s h1 h2
    by_cases hf : s.cached_push ≤ s.pop_cursor
    · by_cases hg : s.push_cursor ≤ s.pop_cursor
      · simp [Fifo4.pop, Fifo4.popFrom, hf, hg]
        omega
      · simp [Fifo4.pop, Fifo4.popFrom, hf, hg]
        omega
    · simp [Fifo4.pop, Fifo4.popFrom, hf]
      omega
  · intro α s v h1 hp
    by_cases hf : s.cached_pop + s.capacity ≤ s.push_cursor
    · by_cases hg : s.pop_cursor + s.capacity ≤ s.push_cursor
      · simp [Fifo4.push, Fifo4.pushTo, hf, hg] at hp
      · omega
    · simp [Fifo4.push, Fifo4.pushTo, hf] at hp
      omega
  · intro α s h1 hp
    by_cases hf : s.cached_push ≤ s.pop_cursor
    · by_cases hg : s.push_cursor ≤ s.pop_cursor
      · simp [Fifo4.pop, Fifo4.popFrom, hf, hg] at hp
      · omega
    · simp [Fifo4.pop, Fifo4.popFrom, hf] at hp
      omega
  · intro α s v h1 h2
    by_cases hf : s.cached_pop + s.capacity ≤ s.push_cursor
    · by_cases hg : s.pop_cursor + s.capacity ≤ s.push_cursor
      · simp [Fifo5.push, Fifo5.pushTo, hf, hg]
        omega
      · simp [Fifo5.push, Fifo5.pushTo, hf, hg]
        omega
    · simp [Fifo5.push, Fifo5.pushTo, hf]
      omega
  · intro α _ s h1 h2
    by_cases hf : s.cached_push ≤ s.pop_cursor
    · by_cases hg : s.push_cursor ≤ s.pop_cursor
      · simp [Fifo5.pop, Fifo5.popFrom, hf, hg]
        omega
      · simp [Fifo5.pop, Fifo5.popFrom, hf, hg]
        omega
    · simp [Fifo5.pop, Fifo5.popFrom, hf]
      omega
  · intro α s v h1 hp
    by_cases hf : s.cached_pop + s.capacity ≤ s.push_cursor
    · by_cases hg : s.pop_cursor + s.capacity ≤ s.push_cursor
      · simp [Fifo5.push, Fifo5.pushTo, hf, hg] at hp
      · omega
    · simp [Fifo5.push, Fifo5.pushTo, hf] at hp
      omega
  · intro α _ s h1 hp
    by_cases hf : s.cached_push ≤ s.pop_cursor
    · by_cases hg : s.push_cursor ≤ s.pop_cursor
      · simp [Fifo5.pop, Fifo5.popFrom, hf, hg] at hp
      · omega
    · simp [Fifo5.pop, Fifo5.popFrom, hf] at hp
      omega

/-- A concrete Fifo4 state with one pending item and stale shadows, used
to witness the shadow-conservativity facts. -/
def c4state : Fifo4State Nat :=
  { capacity := 2, ring := [some 7, none], push_cursor := 1, cached_pop := 0, pop_cursor := 1, cached_push := 0 }

/-- C4 witness: the conservativity facts applied on a concrete stale
shadow state. -/
theorem spec_c4_witness :
    c4state.cached_pop ≤ c4state.pop_cursor ∧
    c4state.cached_push ≤ c4state.push_cursor ∧
    ((Fifo4.push 9 c4state).2.cached_pop ≤ (Fifo4.push 9 c4state).2.pop_cursor ∧
     (Fifo4.push 9 c4state).2.cached_push ≤ (Fifo4.push 9 c4state).2.push_cursor) :=
  ⟨by decide, by decide, spec_c4_shadow_conservative.1 Nat c4state 9 (by decide) (by decide)⟩

/-- C1 (amended): strict FIFO for every variant (capacity at least 2 for
the turn-based variant): in every single-threaded interleaved push/pop
sequence from a fresh queue, every call returns, and the sequence of
popped values is exactly the prefix of the successfully pushed values in
push order. -/
theorem spec_c1_fifo_order :
    (∀ (α : Type u) (cap : Nat) (ops : List (Op α)),
      ∃ sf popped pushedOk,
        runQ Fifo1.push Fifo1.pop (Fifo1.new α cap) ops = some (sf, popped, pushedOk) ∧
        ∃ rest, pushedOk = popped ++ rest) ∧
    (∀ (α : Type u) (cap : Nat) (ops : List (Op α)),
      ∃ sf popped pushedOk,
        runQ Fifo2.pushO Fifo2.popO (Fifo2.new α cap) ops = some (sf, popped, pushedOk) ∧
        ∃ rest, pushedOk = popped ++ rest) ∧
    (∀ (α : Type u) (cap : Nat) (ops : List (Op α)),
      ∃ sf popped pushedOk,
        runQ Fifo3.pushO Fifo3.popO (Fifo3.new α cap) ops = some (sf, popped, pushedOk) ∧
        ∃ rest, pushedOk = popped ++ rest) ∧
    (∀ (α : Type u) (cap : Nat) (ops : List (Op α)),
      ∃ sf popped pushedOk,
        runQ Fifo4.pushO Fifo4.popO (Fifo4.new α cap) ops = some (sf, popped, pushedOk) ∧
        ∃ rest, pushedOk = popped ++ rest) ∧
    (∀ (α : Type u) [Inhabited α] (cap : Nat) (ops : List (Op α)),
      ∃ sf popped pushedOk,
        runQ Fifo5.pushO Fifo5.popO (Fifo5.new α cap) ops = some (sf, popped, pushedOk) ∧
        ∃ rest, pushedOk = popped ++ rest) ∧
    (∀ (α : Type u) [Inhabited α] (k : Nat), 1 ≤ k → k ≤ 63 → ∀ ops : List (Op α),
      ∃ sf popped pushedOk,
        runQ Fifo6.push Fifo6.pop (Fifo6.fresh α (2 ^ k)) ops = some (sf, popped, pushedOk) ∧
        ∃ rest, pushedOk = popped ++ rest) := by
  refine ⟨?_, ?_, ?_, ?_, ?_, ?_⟩
  · intro α cap ops
    exact runQ_fifo (fifo1Sim α cap) ops (Fifo1.new α cap) ⟨fifo1_new_rel α cap, rfl⟩
  · intro α cap ops
    exact runQ_fifo (fifo2Sim α cap) ops (Fifo2.new α cap) ⟨fifo2_new_rel α cap, rfl⟩
  · intro α cap ops
    exact runQ_fifo (fifo3Sim α cap) ops (Fifo3.new α cap) ⟨fifo3_new_rel α cap, rfl⟩
  · intro α cap ops
    exact runQ_fifo (fifo4Sim α cap) ops (Fifo4.new α cap) ⟨fifo4_new_rel α cap, rfl⟩
  · intro α hinst cap ops
    exact runQ_fifo (fifo5Sim α cap) ops (Fifo5.new α cap) ⟨fifo5_new_rel α cap, rfl⟩
  · intro α hinst k hk1 hk63 ops
    exact runQ_fifo (fifo6Sim α k) ops (Fifo6.fresh α (2 ^ k))
      ⟨⟨0, 0, fifo6_fresh_inv α k hk1 hk63⟩, rfl⟩

/-- C1 counterexample: the claim fails on the turn-based variant at
capacity 1 (a power of two accepted by new).  With one slot the full and
free turn conditions coincide, so every push succeeds; after 2^64+1
pushes of the values 0..2^64 the wrapped counters let a pop succeed, and
it returns the last pushed value 2^64 rather than the oldest unpopped
value 0, so the popped sequence is not a prefix of the pushed one. -/
theorem spec_c1_counterexample :
    runQ Fifo6.push Fifo6.pop (Fifo6.fresh Nat 1)
      ((List.range' 0 (W + 1)).map Op.push ++ [Op.pop]) =
      some ({ capacity := 1, ring := [{ turn := 1, data := some W }], head := 1, tail := 1 }, [W], List.range' 0 (W + 1)) ∧
    (List.range' 0 (W + 1))[0]? = some 0 ∧
    (0 : Nat) ≠ W := by
  have hmod : (0 + W + 1) % W = 1 := by unfold W; omega
  have hW0 : (0 : Nat) + W = W := by omega
  have hrun1 : runQ Fifo6.push Fifo6.pop (Fifo6.fresh Nat 1)
      ((List.range' 0 (W + 1)).map Op.push) =
      some ({ capacity := 1, ring := [{ turn := 1, data := some W }], head := 0, tail := 1 }, [], List.range' 0 (W + 1)) := by
    have hp := fifo6_cap1_pushes 0 W 0 none
    rw [hmod, hW0] at hp
    have hfr : Fifo6.fresh Nat 1 =
        { capacity := 1, ring := [{ turn := 0 % W, data := none }], head := 0, tail := 0 % W } := by
      have h1 : List.range 1 = [0] := rfl
      simp [Fifo6.fresh, h1]
    rw [hfr]
    exact hp
  refine ⟨?_, ?_, ?_⟩
  · rw [runQ_append Fifo6.push Fifo6.pop _ _ _ _ _ _ hrun1]
    have hpop : runQ Fifo6.push Fifo6.pop
        { capacity := 1, ring := [{ turn := 1, data := some W }], head := 0, tail := 1 }
        [Op.pop] =
        some ({ capacity := 1, ring := [{ turn := 1, data := some W }], head := 1, tail := 1 }, [W], []) := by
      rfl
    rw [hpop]
    simp
  · rw [List.getElem?_eq_getElem (by simp)]
    simp [List.getElem_range']
  · unfold W
    omega

/-- C1 witness: the amended FIFO theorem instantiated on a small concrete
run of the turn-based variant at capacity 2. -/
theorem spec_c1_witness :
    1 ≤ 1 ∧ 1 ≤ 63 ∧
    (∃ sf popped pushedOk,
      runQ Fifo6.push Fifo6.pop (Fifo6.fresh Nat (2 ^ 1))
        [Op.push 5, Op.push 6, Op.pop] = some (sf, popped, pushedOk) ∧
      ∃ rest, pushedOk = popped ++ rest) :=
  ⟨by decide, by decide,
    spec_c1_fifo_order.2.2.2.2.2 Nat 1 (by decide) (by decide) [Op.push 5, Op.push 6, Op.pop]⟩

/-- C2 counterexample: on the turn-based variant the claim fails at
capacity C = 1 (accepted by new: 1 is a power of two).  After the single
successful push that fills the queue, the second push with no intervening
pop returns true instead of false, overwriting the pending item. -/
theorem spec_c2_counterexample :
    Fifo6.new Nat 1 = some (Fifo6.fresh Nat 1) ∧
    Fifo6.push 0 (Fifo6.fresh Nat 1) =
      some (true, { capacity := 1, ring := [{ turn := 1, data := some 0 }], head := 0, tail := 1 }) ∧
    Fifo6.push 1 { capacity := 1, ring := [{ turn := 1, data := some 0 }], head := 0, tail := 1 } =
      some (true, { capacity := 1, ring := [{ turn := 2, data := some 1 }], head := 0, tail := 2 }) := by
  refine ⟨by decide, by decide, by decide⟩

/-- C2 (amended): for every variant and every capacity C ≥ 1 (restricted
to powers of two 2^k with 1 ≤ k ≤ 63, hence C ≥ 2, for the turn-based
variant), C pushes from a fresh queue all succeed, the (C+1)-th push with
no intervening pop returns false, and after one pop the next push
succeeds. -/
theorem spec_c2_capacity :
    (∀ (α : Type u) (cap : Nat) (vs : List α) (w y : α), vs.length = cap → 1 ≤ cap →
      ∃ sC x vs2 sD sE, vs = x :: vs2 ∧
        runQ Fifo1.push Fifo1.pop (Fifo1.new α cap) (vs.map Op.push) = some (sC, [], vs) ∧
        Fifo1.push w sC = some (false, sC) ∧
        Fifo1.pop sC = some (some x, sD) ∧
        Fifo1.push y sD = some (true, sE)) ∧
    (∀ (α : Type u) (cap : Nat) (vs : List α) (w y : α), vs.length = cap → 1 ≤ cap →
      ∃ sC x vs2 sD sE, vs = x :: vs2 ∧
        runQ Fifo2.pushO Fifo2.popO (Fifo2.new α cap) (vs.map Op.push) = some (sC, [], vs) ∧
        Fifo2.push w sC = (false, sC) ∧
        Fifo2.pop sC = (some x, sD) ∧
        Fifo2.push y sD = (true, sE)) ∧
    (∀ (α : Type u) (cap : Nat) (vs : List α) (w y : α), vs.length = cap → 1 ≤ cap →
      ∃ sC x vs2 sD sE, vs = x :: vs2 ∧
        runQ Fifo3.pushO Fifo3.popO (Fifo3.new α cap) (vs.map Op.push) = some (sC, [], vs) ∧
        Fifo3.push w sC = (false, sC) ∧
        Fifo3.pop sC = (some x, sD) ∧
        Fifo3.push y sD = (true, sE)) ∧
    (∀ (α : Type u) (cap : Nat) (vs : List α) (w y : α), vs.length = cap → 1 ≤ cap →
      ∃ sC x vs2 sD sE, vs = x :: vs2 ∧
        runQ Fifo4.pushO Fifo4.popO (Fifo4.new α cap) (vs.map Op.push) = some (sC, [], vs) ∧
        Fifo4.push w sC = (false, sC) ∧
        Fifo4.pop sC = (some x, sD) ∧
        Fifo4.push y sD = (true, sE)) ∧
    (∀ (α : Type u) [Inhabited α] (cap : Nat) (vs : List α) (w y : α),
      vs.length = cap → 1 ≤ cap →
      ∃ sC x vs2 sD sE, vs = x :: vs2 ∧
        runQ Fifo5.pushO Fifo5.popO (Fifo5.new α cap) (vs.map Op.push) = some (sC, [], vs) ∧
        Fifo5.push w sC = (false, sC) ∧
        Fifo5.pop sC = (some x, sD) ∧
        Fifo5.push y sD = (true, sE)) ∧
    (∀ (α : Type u) [Inhabited α] (k : Nat) (vs : List α) (w y : α),
      1 ≤ k → k ≤ 63 → vs.length = 2 ^ k →
      ∃ sC x vs2 sD sE, vs = x :: vs2 ∧
        runQ Fifo6.push Fifo6.pop (Fifo6.fresh α (2 ^ k)) (vs.map Op.push) = some (sC, [], vs) ∧
        Fifo6.push w sC = some (false, sC) ∧
        Fifo6.pop sC = some (some x, sD) ∧
        Fifo6.push y sD = some (true, sE)) := by
  refine ⟨?_, ?_, ?_, ?_, ?_, ?_⟩
  · intro α cap vs w y hlen hpos
    exact queue_c2 (fifo1Sim α cap) _ ⟨fifo1_new_rel α cap, rfl⟩ vs hlen hpos w y
  · intro α cap vs w y hlen hpos
    obtain ⟨sC, x, vs2, sD, sE, he, hrun, hfull, hpop, hpush⟩ :=
      queue_c2 (fifo2Sim α cap) _ ⟨fifo2_new_rel α cap, rfl⟩ vs hlen hpos w y
    exact ⟨sC, x, vs2, sD, sE, he, hrun, Option.some.inj hfull, Option.some.inj hpop,
      Option.some.inj hpush⟩
  · intro α cap vs w y hlen hpos
    obtain ⟨sC, x, vs2, sD, sE, he, hrun, hfull, hpop, hpush⟩ :=
      queue_c2 (fifo3Sim α cap) _ ⟨fifo3_new_rel α cap, rfl⟩ vs hlen hpos w y
    exact ⟨sC, x, vs2, sD, sE, he, hrun, Option.some.inj hfull, Option.some.inj hpop,
      Option.some.inj hpush⟩
  · intro α cap vs w y hlen hpos
    obtain ⟨sC, x, vs2, sD, sE, he, hrun, hfull, hpop, hpush⟩ :=
      queue_c2 (fifo4Sim α cap) _ ⟨fifo4_new_rel α cap, rfl⟩ vs hlen hpos w y
    exact ⟨sC, x, vs2, sD, sE, he, hrun, Option.some.inj hfull, Option.some.inj hpop,
      Option.some.inj hpush⟩
  · intro α hinst cap vs w y hlen hpos
    obtain ⟨sC, x, vs2, sD, sE, he, hrun, hfull, hpop, hpush⟩ :=
      queue_c2 (fifo5Sim α cap) _ ⟨fifo5_new_rel α cap, rfl⟩ vs hlen hpos w y
    exact ⟨sC, x, vs2, sD, sE, he, hrun, Option.some.inj hfull, Option.some.inj hpop,
      Option.some.inj hpush⟩
  · intro α hinst k vs w y hk1 hk63 hlen
    exact queue_c2 (fifo6Sim α k) _ ⟨⟨0, 0, fifo6_fresh_inv α k hk1 hk63⟩, rfl⟩ vs hlen
      (Nat.one_le_two_pow) w y

/-- C2 witness: the amended theorem on the baseline variant at capacity
1 and on the turn-based variant at capacity 2. -/
theorem spec_c2_witness :
    ([7].length = 1 ∧ 1 ≤ 1 ∧
      ∃ sC x vs2 sD sE, [7] = x :: vs2 ∧
        runQ Fifo1.push Fifo1.pop (Fifo1.new Nat 1) ([7].map Op.push) = some (sC, [], [7]) ∧
        Fifo1.push 8 sC = some (false, sC) ∧
        Fifo1.pop sC = some (some x, sD) ∧
        Fifo1.push 9 sD = some (true, sE)) ∧
    (1 ≤ 1 ∧ 1 ≤ 63 ∧ [3, 4].length = 2 ^ 1 ∧
      ∃ sC x vs2 sD sE, [3, 4] = x :: vs2 ∧
        runQ Fifo6.push Fifo6.pop (Fifo6.fresh Nat (2 ^ 1)) ([3, 4].map Op.push) = some (sC, [], [3, 4]) ∧
        Fifo6.push 8 sC = some (false, sC) ∧
        Fifo6.pop sC = some (some x, sD) ∧
        Fifo6.push 9 sD = some (true, sE)) :=
  ⟨⟨by decide, by decide,
      spec_c2_capacity.1 Nat 1 [7] 8 9 (by decide) (by decide)⟩,
    ⟨by decide, by decide, by decide,
      spec_c2_capacity.2.2.2.2.2 Nat 1 [3, 4] 8 9 (by decide) (by decide) (by decide)⟩⟩

/-- C9 counterexample: the claim quantifies over every state in which a
push succeeds, but FIFO order means the next pop returns the oldest
pending item, not the value just pushed: on a baseline queue of capacity
2 holding 1, pushing 2 succeeds and the following pop returns 1. -/
theorem spec_c9_counterexample :
    Fifo1.push 1 (Fifo1.new Nat 2) =
      some (true, { capacity := 2, ring := [some 1, none], push_cursor := 1, pop_cursor := 0 }) ∧
    Fifo1.push 2 { capacity := 2, ring := [some 1, none], push_cursor := 1, pop_cursor := 0 } =
      some (true, { capacity := 2, ring := [some 1, some 2], push_cursor := 2, pop_cursor := 0 }) ∧
    Fifo1.pop { capacity := 2, ring := [some 1, some 2], push_cursor := 2, pop_cursor := 0 } =
      some (some 1, { capacity := 2, ring := [none, some 2], push_cursor := 2, pop_cursor := 1 }) ∧
    (1 : Nat) ≠ 2 := by
  refine ⟨by decide, by decide, by decide, by decide⟩

/-- C9 (amended): for every variant and arbitrary stored type, in every
reachable state in which the queue is empty, a successful push of v
followed immediately by a pop yields exactly v.  For the turn-based
variant this covers every capacity 2^k accepted by the power-of-two
assert, including capacity 1: in every reachable empty state head equals
tail and the examined slot carries turn = tail (for capacity at least 2
this follows from the reachability invariant with no pending items; for
capacity 1 it holds in every sequentially reachable state with no
pending item), so the push claims the slot, publishes turn = tail+1, and
the pop at head = tail reads that same slot back. -/
theorem spec_c9_roundtrip :
    (∀ (α : Type u) (s : Fifo1State α) (v : α), Fifo1.rel s [] → 1 ≤ s.capacity →
      ∃ s1 s2, Fifo1.push v s = some (true, s1) ∧ Fifo1.pop s1 = some (some v, s2)) ∧
    (∀ (α : Type u) (s : Fifo2State α) (v : α), Fifo2.rel s [] → 1 ≤ s.capacity →
      ∃ s1 s2, Fifo2.push v s = (true, s1) ∧ Fifo2.pop s1 = (some v, s2)) ∧
    (∀ (α : Type u) (s : Fifo3State α) (v : α), Fifo3.rel s [] → 1 ≤ s.capacity →
      ∃ s1 s2, Fifo3.push v s = (true, s1) ∧ Fifo3.pop s1 = (some v, s2)) ∧
    (∀ (α : Type u) (s : Fifo4State α) (v : α), Fifo4.rel s [] → 1 ≤ s.capacity →
      ∃ s1 s2, Fifo4.push v s = (true, s1) ∧ Fifo4.pop s1 = (some v, s2)) ∧
    (∀ (α : Type u) [Inhabited α] (s : Fifo5State α) (v : α), Fifo5.rel s [] → 1 ≤ s.capacity →
      ∃ s1 s2, Fifo5.push v s = (true, s1) ∧ Fifo5.pop s1 = (some v, s2)) ∧
    (∀ (α : Type u) [Inhabited α] (s : Fifo6State α) (k : Nat) (v : α), k ≤ 63 →
      s.capacity = 2 ^ k → s.ring.length = s.capacity → s.tail < W → s.head = s.tail →
      (∃ sl : Slot6 α, s.ring[s.tail % s.capacity]? = some sl ∧ sl.turn = s.tail) →
      ∃ s1 s2, Fifo6.push v s = some (true, s1) ∧ Fifo6.pop s1 = some (some v, s2)) := by
  refine ⟨?_, ?_, ?_, ?_, ?_, ?_⟩
  · intro α s v hR hpos
    exact queue_roundtrip (fifo1Sim α s.capacity) s ⟨hR, rfl⟩ v hpos
  · intro α s v hR hpos
    obtain ⟨s1, s2, hp, hq⟩ := queue_roundtrip (fifo2Sim α s.capacity) s ⟨hR, rfl⟩ v hpos
    exact ⟨s1, s2, Option.some.inj hp, Option.some.inj hq⟩
  · intro α s v hR hpos
    obtain ⟨s1, s2, hp, hq⟩ := queue_roundtrip (fifo3Sim α s.capacity) s ⟨hR, rfl⟩ v hpos
    exact ⟨s1, s2, Option.some.inj hp, Option.some.inj hq⟩
  · intro α s v hR hpos
    obtain ⟨s1, s2, hp, hq⟩ := queue_roundtrip (fifo4Sim α s.capacity) s ⟨hR, rfl⟩ v hpos
    exact ⟨s1, s2, Option.some.inj hp, Option.some.inj hq⟩
  · intro α hinst s v hR hpos
    obtain ⟨s1, s2, hp, hq⟩ := queue_roundtrip (fifo5Sim α s.capacity) s ⟨hR, rfl⟩ v hpos
    exact ⟨s1, s2, Option.some.inj hp, Option.some.inj hq⟩
  · intro α hinst s k v hk hcap hring htail hhead hslot
    obtain ⟨c, rg, hd, tl⟩ := s
    simp only at hcap hring htail hhead hslot
    subst hd
    obtain ⟨sl, hsl, hturn⟩ := hslot
    have hc0 : 0 < c := by
      rw [hcap]
      exact Nat.pos_pow_of_pos k (by norm_num)
    have hm : ∀ x : Nat, x &&& (c - 1) = x % c := by
      intro x
      rw [hcap]
      exact mask_eq_mod x k
    have hgetD1 : rg.getD (tl % c) default = sl := by
      rw [List.getD_eq_getElem?_getD, hsl]
      rfl
    have hd1 : wsub sl.turn tl = 0 :=
      (wsub_eq_zero_iff (by rw [hturn]; exact htail) htail).mpr hturn
    have hset : (rg.set (tl % c) (⟨(tl + 1) % W, some v⟩ : Slot6 α)).getD (tl % c) default =
        (⟨(tl + 1) % W, some v⟩ : Slot6 α) := by
      rw [List.getD_eq_getElem?_getD,
        List.getElem?_set_self (by rw [hring]; exact Nat.mod_lt _ hc0)]
      rfl
    have hd2 : wsub ((tl + 1) % W) ((tl + 1) % W) = 0 := wsub_self_mod (tl + 1)
    refine ⟨⟨c, rg.set (tl % c) ⟨(tl + 1) % W, some v⟩, tl, (tl + 1) % W⟩,
      ⟨c, (rg.set (tl % c) ⟨(tl + 1) % W, some v⟩).set (tl % c) ⟨(tl + c) % W, some v⟩,
        (tl + 1) % W, (tl + 1) % W⟩, ?_, ?_⟩
    · simp only [Fifo6.push, Fifo6.pushStep, hm, hgetD1, hd1, if_true]
    · simp only [Fifo6.pop, Fifo6.popStep, hm, hset, hd2, if_true, Option.getD_some]

/-- C9 witness: round-trip on a fresh queue of pairs through the baseline
conjunct, and on a fresh turn-based queue of capacity 2^0 = 1 through the
turn-based conjunct, both applied through the amended theorem. -/
theorem spec_c9_witness :
    (Fifo1.rel (Fifo1.new (Nat × Bool) 3) [] ∧ 1 ≤ (Fifo1.new (Nat × Bool) 3).capacity ∧
      ∃ s1 s2, Fifo1.push (4, true) (Fifo1.new (Nat × Bool) 3) = some (true, s1) ∧
        Fifo1.pop s1 = some (some (4, true), s2)) ∧
    ((0 : Nat) ≤ 63 ∧ (Fifo6.fresh Nat (2 ^ 0)).capacity = 2 ^ 0 ∧
      (Fifo6.fresh Nat (2 ^ 0)).ring.length = (Fifo6.fresh Nat (2 ^ 0)).capacity ∧
      (Fifo6.fresh Nat (2 ^ 0)).tail < W ∧
      (Fifo6.fresh Nat (2 ^ 0)).head = (Fifo6.fresh Nat (2 ^ 0)).tail ∧
      (∃ sl : Slot6 Nat,
        (Fifo6.fresh Nat (2 ^ 0)).ring[(Fifo6.fresh Nat (2 ^ 0)).tail % (Fifo6.fresh Nat (2 ^ 0)).capacity]? =
          some sl ∧ sl.turn = (Fifo6.fresh Nat (2 ^ 0)).tail) ∧
      ∃ s1 s2, Fifo6.push 7 (Fifo6.fresh Nat (2 ^ 0)) = some (true, s1) ∧
        Fifo6.pop s1 = some (some 7, s2)) :=
  ⟨⟨fifo1_new_rel (Nat × Bool) 3, by decide,
      spec_c9_roundtrip.1 (Nat × Bool) (Fifo1.new (Nat × Bool) 3) (4, true)
        (fifo1_new_rel (Nat × Bool) 3) (by decide)⟩,
    ⟨by decide, rfl, rfl, by decide, rfl, ⟨⟨0, none⟩, rfl, rfl⟩,
      spec_c9_roundtrip.2.2.2.2.2 Nat (Fifo6.fresh Nat (2 ^ 0)) 0 7 (by decide) rfl rfl
        (by decide) rfl ⟨⟨0, none⟩, rfl, rfl⟩⟩⟩

/-- C7 counterexample: the claim that a push on a full queue always
returns false without mutating state fails on the turn-based variant at
capacity 1: one push fills the queue (size = capacity = 1), and the next
push returns true and rewrites the slot and tail. -/
theorem spec_c7_counterexample :
    Fifo6.push 0 (Fifo6.fresh Nat 1) =
      some (true, { capacity := 1, ring := [{ turn := 1, data := some 0 }], head := 0, tail := 1 }) ∧
    Fifo6.push 1 { capacity := 1, ring := [{ turn := 1, data := some 0 }], head := 0, tail := 1 } =
      some (true, { capacity := 1, ring := [{ turn := 2, data := some 1 }], head := 0, tail := 2 }) ∧
    ({ capacity := 1, ring := [{ turn := 2, data := some 1 }], head := 0, tail := 2 } : Fifo6State Nat) ≠
      { capacity := 1, ring := [{ turn := 1, data := some 0 }], head := 0, tail := 1 } := by
  refine ⟨by decide, by decide, by decide⟩

/-- C7 (amended): for every variant (capacity a power of two at least 2
for the turn-based variant), in every single-threaded reachable state a
pop on an empty queue returns none leaving the state bit-for-bit
unchanged (cursors, ring, shadows), and a push on a full queue returns
false leaving the state unchanged. -/
theorem spec_c7_empty_full :
    (∀ (α : Type u) (s : Fifo1State α), Fifo1.rel s [] → Fifo1.pop s = some (none, s)) ∧
    (∀ (α : Type u) (s : Fifo1State α) (l : List α) (v : α), Fifo1.rel s l →
      l.length = s.capacity → Fifo1.push v s = some (false, s)) ∧
    (∀ (α : Type u) (s : Fifo2State α), Fifo2.rel s [] → Fifo2.pop s = (none, s)) ∧
    (∀ (α : Type u) (s : Fifo2State α) (l : List α) (v : α), Fifo2.rel s l →
      l.length = s.capacity → Fifo2.push v s = (false, s)) ∧
    (∀ (α : Type u) (s : Fifo3State α), Fifo3.rel s [] → Fifo3.pop s = (none, s)) ∧
    (∀ (α : Type u) (s : Fifo3State α) (l : List α) (v : α), Fifo3.rel s l →
      l.length = s.capacity → Fifo3.push v s = (false, s)) ∧
    (∀ (α : Type u) (s : Fifo4State α), Fifo4.rel s [] → Fifo4.pop s = (none, s)) ∧
    (∀ (α : Type u) (s : Fifo4State α) (l : List α) (v : α), Fifo4.rel s l →
      l.length = s.capacity → Fifo4.push v s = (false, s)) ∧
    (∀ (α : Type u) [Inhabited α] (s : Fifo5State α), Fifo5.rel s [] → Fifo5.pop s = (none, s)) ∧
    (∀ (α : Type u) (s : Fifo5State α) (l : List α) (v : α), Fifo5.rel s l →
      l.length = s.capacity → Fifo5.push v s = (false, s)) ∧
    (∀ (α : Type u) [Inhabited α] (s : Fifo6State α) (H T : Nat), Fifo6Inv s H T [] →
      Fifo6.pop s = some (none, s)) ∧
    (∀ (α : Type u) (s : Fifo6State α) (H T : Nat) (l : List α) (v : α), Fifo6Inv s H T l →
      l.length = s.capacity → Fifo6.push v s = some (false, s)) := by
  refine ⟨?_, ?_, ?_, ?_, ?_, ?_, ?_, ?_, ?_, ?_, ?_, ?_⟩
  · exact fun α s hR => fifo1_pop_empty s hR
  · exact fun α s l v hR hlen => fifo1_push_full s l v hR hlen
  · exact fun α s hR => fifo2_pop_empty s hR
  · exact fun α s l v hR hlen => fifo2_push_full s l v hR hlen
  · exact fun α s hR => fifo3_pop_empty s hR
  · exact fun α s l v hR hlen => fifo3_push_full s l v hR hlen
  · exact fun α s hR => fifo4_pop_empty s hR
  · exact fun α s l v hR hlen => fifo4_push_full s l v hR hlen
  · exact fun α _ s hR => fifo5_pop_empty s hR
  · exact fun α s l v hR hlen => fifo5_push_full s l v hR hlen
  · exact fun α _ s H T hI => fifo6_pop_empty s H T hI
  · exact fun α s H T l v hI hlen => fifo6_push_full s H T l v hI hlen

/-- C7 witness: pop on a concrete fresh (empty) baseline queue through
the amended theorem. -/
theorem spec_c7_witness :
    Fifo1.rel (Fifo1.new Nat 2) [] ∧
    Fifo1.pop (Fifo1.new Nat 2) = some (none, Fifo1.new Nat 2) :=
  ⟨fifo1_new_rel Nat 2, spec_c7_empty_full.1 Nat (Fifo1.new Nat 2) (fifo1_new_rel Nat 2)⟩

/-- C6: Fifo5 teardown destroys exactly the logically enqueued items —
one destructor run per counter in pop_cursor..push_cursor — and nothing
else; in particular after K pushes and no pops exactly the K pushed
values are destroyed, in order. -/
theorem spec_c6_drop_exact :
    (∀ (α : Type u) (s : Fifo5State α) (l : List α), Fifo5.rel s l →
      Fifo5.dropped s = l.map some ∧
      (Fifo5.dropped s).length = s.push_cursor - s.pop_cursor) ∧
    (∀ (α : Type u) [Inhabited α] (cap : Nat) (vs : List α), vs.length ≤ cap →
      ∃ sf, runQ Fifo5.pushO Fifo5.popO (Fifo5.new α cap) (vs.map Op.push) = some (sf, [], vs) ∧
        Fifo5.dropped sf = vs.map some ∧ (Fifo5.dropped sf).length = vs.length) := by
  constructor
  · intro α s l hR
    have hdrop := fifo5_dropped_eq s l hR
    obtain ⟨_, _, _, _, _, _, _, hlen, _⟩ := hR
    refine ⟨hdrop, ?_⟩
    rw [hdrop]
    simp [hlen]
  · intro α hinst cap vs hlen
    obtain ⟨sf, hrun, hRf⟩ := runQ_pushes (fifo5Sim α cap) vs (Fifo5.new α cap) []
      ⟨fifo5_new_rel α cap, rfl⟩ (by simpa using hlen)
    have hRf2 : Fifo5.rel sf vs := by simpa using hRf.1
    have hdrop := fifo5_dropped_eq sf vs hRf2
    exact ⟨sf, hrun, hdrop, by rw [hdrop]; simp⟩

/-- C6 witness: two pushes on a fresh raw-storage queue of capacity 3,
then teardown destroys exactly those two values. -/
theorem spec_c6_witness :
    ([10, 11].length ≤ 3) ∧
    ∃ sf, runQ Fifo5.pushO Fifo5.popO (Fifo5.new Nat 3) ([10, 11].map Op.push) = some (sf, [], [10, 11]) ∧
      Fifo5.dropped sf = [10, 11].map some ∧ (Fifo5.dropped sf).length = [10, 11].length :=
  ⟨by decide, spec_c6_drop_exact.2 Nat 3 [10, 11] (by decide)⟩

theorem fifo6_pushLoop_inv (v : α) (s : Fifo6State α) (r : Bool × Fifo6State α) (f : Nat)
    (h : Fifo6.pushLoop f v s = some r) : Fifo6.pushStep v s = some r := by
  cases f with
  | zero => simp [Fifo6.pushLoop] at h
  | succ f =>
    rw [Fifo6.pushLoop] at h
    cases hs : Fifo6.pushStep v s with
    | none =>
      rw [hs, fifo6_pushLoop_of_retry v s hs f] at h
      exact absurd h (by simp)
    | some r2 =>
      rw [hs] at h
      exact (h : some r2 = some r)

theorem fifo6_popLoop_inv [Inhabited α] (s : Fifo6State α) (r : Option α × Fifo6State α)
    (f : Nat) (h : Fifo6.popLoop f s = some r) : Fifo6.popStep s = some r := by
  cases f with
  | zero => simp [Fifo6.popLoop] at h
  | succ f =>
    rw [Fifo6.popLoop] at h
    cases hs : Fifo6.popStep s with
    | none =>
      rw [hs, fifo6_popLoop_of_retry s hs f] at h
      exact absurd h (by simp)
    | some r2 =>
      rw [hs] at h
      exact (h : some r2 = some r)

theorem fifo6_pushStep_cases (v : α) (s : Fifo6State α) (h : Fifo6.pushStep v s ≠ none) :
    wsub (s.ring.getD (s.tail &&& (s.capacity - 1)) default).turn s.tail = 0 ∨
    HALF ≤ wsub (s.ring.getD (s.tail &&& (s.capacity - 1)) default).turn s.tail := by
  by_cases h1 : wsub (s.ring.getD (s.tail &&& (s.capacity - 1)) default).turn s.tail = 0
  · exact Or.inl h1
  · by_cases h2 : HALF ≤ wsub (s.ring.getD (s.tail &&& (s.capacity - 1)) default).turn s.tail
    · exact Or.inr h2
    · exact absurd (by simp only [Fifo6.pushStep]; rw [if_neg h1, if_neg h2]) h

theorem fifo6_popStep_cases [Inhabited α] (s : Fifo6State α) (h : Fifo6.popStep s ≠ none) :
    wsub (s.ring.getD (s.head &&& (s.capacity - 1)) default).turn ((s.head + 1) % W) = 0 ∨
    HALF ≤ wsub (s.ring.getD (s.head &&& (s.capacity - 1)) default).turn ((s.head + 1) % W) := by
  by_cases h1 : wsub (s.ring.getD (s.head &&& (s.capacity - 1)) default).turn ((s.head + 1) % W) = 0
  · exact Or.inl h1
  · by_cases h2 : HALF ≤ wsub (s.ring.getD (s.head &&& (s.capacity - 1)) default).turn ((s.head + 1) % W)
    · exact Or.inr h2
    · exact absurd (by simp only [Fifo6.popStep]; rw [if_neg h1, if_neg h2]) h

/-- C10 counterexample: the claim fails at capacity 1 (reachable by
sequential pushes only).  After two pushes the single slot's turn is 2
while a pop compares against head+1 = 1: the turn strictly leads in the
wrapped order, the retry branch is taken, and pop never returns. -/
theorem spec_c10_counterexample :
    Fifo6.push 0 (Fifo6.fresh Nat 1) =
      some (true, { capacity := 1, ring := [{ turn := 1, data := some 0 }], head := 0, tail := 1 }) ∧
    Fifo6.push 1 { capacity := 1, ring := [{ turn := 1, data := some 0 }], head := 0, tail := 1 } =
      some (true, { capacity := 1, ring := [{ turn := 2, data := some 1 }], head := 0, tail := 2 }) ∧
    Fifo6.popStep ({ capacity := 1, ring := [{ turn := 2, data := some 1 }], head := 0, tail := 2 } : Fifo6State Nat) = none ∧
    Fifo6.popLoop 5 ({ capacity := 1, ring := [{ turn := 2, data := some 1 }], head := 0, tail := 2 } : Fifo6State Nat) = none ∧
    0 < wsub 2 ((0 + 1) % W) ∧ wsub 2 ((0 + 1) % W) < HALF := by
  refine ⟨by decide, by decide, by decide, by decide, by decide, by decide⟩

/-- C10 (amended): for capacities 2^k with 1 ≤ k ≤ 63, in every state
reachable by single-threaded pushes and pops the examined slot's turn
never strictly leads the comparison value (the wrapped difference is
zero or negative), so the retry branch of both loops is unreachable and
push and pop return on their first iteration. -/
theorem spec_c10_single_iteration :
    ∀ (α : Type u) [Inhabited α] (k : Nat), 1 ≤ k → k ≤ 63 → ∀ ops : List (Op α),
    ∃ sf popped pushedOk,
      runQ Fifo6.push Fifo6.pop (Fifo6.fresh α (2 ^ k)) ops = some (sf, popped, pushedOk) ∧
      (∀ v : α, Fifo6.pushStep v sf ≠ none) ∧
      (wsub (sf.ring.getD (sf.tail &&& (sf.capacity - 1)) default).turn sf.tail = 0 ∨
        HALF ≤ wsub (sf.ring.getD (sf.tail &&& (sf.capacity - 1)) default).turn sf.tail) ∧
      (∀ v : α, ∀ f : Nat, Fifo6.pushLoop (f + 1) v sf = Fifo6.pushStep v sf) ∧
      Fifo6.popStep sf ≠ none ∧
      (wsub (sf.ring.getD (sf.head &&& (sf.capacity - 1)) default).turn ((sf.head + 1) % W) = 0 ∨
        HALF ≤ wsub (sf.ring.getD (sf.head &&& (sf.capacity - 1)) default).turn ((sf.head + 1) % W)) ∧
      (∀ f : Nat, Fifo6.popLoop (f + 1) sf = Fifo6.popStep sf) := by
  intro α hinst k hk1 hk63 ops
  obtain ⟨sf, popped, pushedOk, lf, hrun, hR, _⟩ :=
    runQ_sim (fifo6Sim α k) ops (Fifo6.fresh α (2 ^ k)) []
      ⟨⟨0, 0, fifo6_fresh_inv α k hk1 hk63⟩, rfl⟩
  obtain ⟨⟨H, T, hI⟩, hc⟩ := hR
  have hlen : lf.length ≤ 2 ^ k := by
    have h1 := hI.len_eq
    have h2 := hI.le_cap
    have h3 := hI.le_HT
    omega
  have hpushs : ∀ v : α, ∃ r, Fifo6.pushStep v sf = some r := by
    intro v
    rcases Nat.lt_or_ge lf.length (2 ^ k) with hlt | hge
    · exact ⟨_, (fifo6_push_ok sf H T lf v hI (by omega)).1⟩
    · exact ⟨_, fifo6_push_full sf H T lf v hI (by omega)⟩
  have hpops : ∃ r, Fifo6.popStep sf = some r := by
    cases lf with
    | nil => exact ⟨_, fifo6_pop_empty sf H T hI⟩
    | cons x l2 => exact ⟨_, (fifo6_pop_ok sf H T x l2 hI).1⟩
  have hpushn : ∀ v : α, Fifo6.pushStep v sf ≠ none := by
    intro v
    obtain ⟨r, hr⟩ := hpushs v
    simp [hr]
  have hpopn : Fifo6.popStep sf ≠ none := by
    obtain ⟨r, hr⟩ := hpops
    simp [hr]
  refine ⟨sf, popped, pushedOk, hrun, hpushn, ?_, ?_, hpopn, ?_, ?_⟩
  · exact fifo6_pushStep_cases default sf (hpushn default)
  · intro v f
    obtain ⟨r, hr⟩ := hpushs v
    rw [fifo6_pushLoop_of_step v sf r hr f, hr]
  · exact fifo6_popStep_cases sf hpopn
  · intro f
    obtain ⟨r, hr⟩ := hpops
    rw [fifo6_popLoop_of_step sf r hr f, hr]

/-- C10 witness: the amended theorem on a small concrete run at
capacity 2. -/
theorem spec_c10_witness :
    1 ≤ 1 ∧ 1 ≤ 63 ∧
    ∃ sf popped pushedOk,
      runQ Fifo6.push Fifo6.pop (Fifo6.fresh Nat (2 ^ 1)) [Op.push 3, Op.pop, Op.pop] =
        some (sf, popped, pushedOk) ∧
      (∀ v : Nat, Fifo6.pushStep v sf ≠ none) ∧
      (wsub (sf.ring.getD (sf.tail &&& (sf.capacity - 1)) default).turn sf.tail = 0 ∨
        HALF ≤ wsub (sf.ring.getD (sf.tail &&& (sf.capacity - 1)) default).turn sf.tail) ∧
      (∀ v : Nat, ∀ f : Nat, Fifo6.pushLoop (f + 1) v sf = Fifo6.pushStep v sf) ∧
      Fifo6.popStep sf ≠ none ∧
      (wsub (sf.ring.getD (sf.head &&& (sf.capacity - 1)) default).turn ((sf.head + 1) % W) = 0 ∨
        HALF ≤ wsub (sf.ring.getD (sf.head &&& (sf.capacity - 1)) default).turn ((sf.head + 1) % W)) ∧
      (∀ f : Nat, Fifo6.popLoop (f + 1) sf = Fifo6.popStep sf) :=
  ⟨by decide, by decide,
    spec_c10_single_iteration Nat 1 (by decide) (by decide) [Op.push 3, Op.pop, Op.pop]⟩

/-- C3: the turn-based protocol, on an arbitrary state (usize-bounded
counters and turns).  Push reads the tail, indexes by tail & (capacity-1)
and succeeds exactly when that slot's turn equals the tail — advancing
the tail by one, writing the item, and stamping the slot's turn as
tail+1; when the turn trails the tail (wrapped difference read as a
negative isize) it reports full, unchanged.  Pop is the mirror around
head+1, restamping the popped slot's turn to head+capacity; when the
turn trails head+1 it reports empty, unchanged.  Each case completes on
the first loop iteration, at any fuel. -/
theorem spec_c3_turn_protocol :
    ∀ (α : Type u) [Inhabited α] (s : Fifo6State α) (v : α) (f : Nat),
      s.tail < W → s.head < W →
      ((s.ring.getD (s.tail &&& (s.capacity - 1)) default).turn = s.tail →
        Fifo6.pushLoop (f + 1) v s = some (true, { s with
          ring := s.ring.set (s.tail &&& (s.capacity - 1))
            { turn := (s.tail + 1) % W, data := some v }
          tail := (s.tail + 1) % W })) ∧
      (HALF ≤ wsub (s.ring.getD (s.tail &&& (s.capacity - 1)) default).turn s.tail →
        Fifo6.pushLoop (f + 1) v s = some (false, s)) ∧
      ((s.ring.getD (s.tail &&& (s.capacity - 1)) default).turn < W →
        ∀ s1, Fifo6.pushLoop (f + 1) v s = some (true, s1) →
          (s.ring.getD (s.tail &&& (s.capacity - 1)) default).turn = s.tail) ∧
      ((s.ring.getD (s.head &&& (s.capacity - 1)) default).turn = (s.head + 1) % W →
        Fifo6.popLoop (f + 1) s = some
          (some ((s.ring.getD (s.head &&& (s.capacity - 1)) default).data.getD default),
          { s with
            ring := s.ring.set (s.head &&& (s.capacity - 1))
              { turn := (s.head + s.capacity) % W,
                data := (s.ring.getD (s.head &&& (s.capacity - 1)) default).data }
            head := (s.head + 1) % W })) ∧
      (HALF ≤ wsub (s.ring.getD (s.head &&& (s.capacity - 1)) default).turn ((s.head + 1) % W) →
        Fifo6.popLoop (f + 1) s = some (none, s)) ∧
      ((s.ring.getD (s.head &&& (s.capacity - 1)) default).turn < W →
        ∀ x s1, Fifo6.popLoop (f + 1) s = some (some x, s1) →
          (s.ring.getD (s.head &&& (s.capacity - 1)) default).turn = (s.head + 1) % W) := by
  intro α hinst s v f htail hhead
  have hW1 : (s.head + 1) % W < W := by
    have : 0 < W := by unfold W; omega
    exact Nat.mod_lt _ this
  refine ⟨?_, ?_, ?_, ?_, ?_, ?_⟩
  · intro ht
    have hd : wsub (s.ring.getD (s.tail &&& (s.capacity - 1)) default).turn s.tail = 0 := by
      rw [ht]
      exact (wsub_eq_zero_iff htail htail).2 rfl
    have hstep : Fifo6.pushStep v s = some (true, { s with
        ring := s.ring.set (s.tail &&& (s.capacity - 1))
          { turn := (s.tail + 1) % W, data := some v }
        tail := (s.tail + 1) % W }) := by
      simp only [Fifo6.pushStep]
      rw [if_pos hd]
    rw [fifo6_pushLoop_of_step v s _ hstep f]
  · intro ht
    have hd : ¬ wsub (s.ring.getD (s.tail &&& (s.capacity - 1)) default).turn s.tail = 0 := by
      intro h0
      rw [h0] at ht
      unfold HALF at ht
      omega
    have hstep : Fifo6.pushStep v s = some (false, s) := by
      simp only [Fifo6.pushStep]
      rw [if_neg hd, if_pos ht]
    rw [fifo6_pushLoop_of_step v s _ hstep f]
  · intro hturnW s1 hrun
    have hstep := fifo6_pushLoop_inv v s _ (f + 1) hrun
    by_cases hd : wsub (s.ring.getD (s.tail &&& (s.capacity - 1)) default).turn s.tail = 0
    · exact (wsub_eq_zero_iff hturnW htail).1 hd
    · by_cases hn : HALF ≤ wsub (s.ring.getD (s.tail &&& (s.capacity - 1)) default).turn s.tail
      · have : Fifo6.pushStep v s = some (false, s) := by
          simp only [Fifo6.pushStep]
          rw [if_neg hd, if_pos hn]
        rw [this] at hstep
        simp at hstep
      · have : Fifo6.pushStep v s = none := by
          simp only [Fifo6.pushStep]
          rw [if_neg hd, if_neg hn]
        rw [this] at hstep
        simp at hstep
  · intro ht
    have hd : wsub (s.ring.getD (s.head &&& (s.capacity - 1)) default).turn ((s.head + 1) % W) = 0 := by
      rw [ht]
      exact (wsub_eq_zero_iff hW1 hW1).2 rfl
    have hstep : Fifo6.popStep s = some
        (some ((s.ring.getD (s.head &&& (s.capacity - 1)) default).data.getD default),
        { s with
          ring := s.ring.set (s.head &&& (s.capacity - 1))
            { turn := (s.head + s.capacity) % W,
              data := (s.ring.getD (s.head &&& (s.capacity - 1)) default).data }
          head := (s.head + 1) % W }) := by
      simp only [Fifo6.popStep]
      rw [if_pos hd]
    rw [fifo6_popLoop_of_step s _ hstep f]
  · intro ht
    have hd : ¬ wsub (s.ring.getD (s.head &&& (s.capacity - 1)) default).turn ((s.head + 1) % W) = 0 := by
      intro h0
      rw [h0] at ht
      unfold HALF at ht
      omega
    have hstep : Fifo6.popStep s = some (none, s) := by
      simp only [Fifo6.popStep]
      rw [if_neg hd, if_pos ht]
    rw [fifo6_popLoop_of_step s _ hstep f]
  · intro hturnW x s1 hrun
    have hstep := fifo6_popLoop_inv s _ (f + 1) hrun
    by_cases hd : wsub (s.ring.getD (s.head &&& (s.capacity - 1)) default).turn ((s.head + 1) % W) = 0
    · exact (wsub_eq_zero_iff hturnW hW1).1 hd
    · by_cases hn : HALF ≤ wsub (s.ring.getD (s.head &&& (s.capacity - 1)) default).turn ((s.head + 1) % W)
      · have : Fifo6.popStep s = some (none, s) := by
          simp only [Fifo6.popStep]
          rw [if_neg hd, if_pos hn]
        rw [this] at hstep
        simp at hstep
      · have : Fifo6.popStep s = none := by
          simp only [Fifo6.popStep]
          rw [if_neg hd, if_neg hn]
        rw [this] at hstep
        simp at hstep

/-- C3 witness: the protocol characterization applied on a concrete
two-slot state holding one item: the push branch succeeds on slot 1 and
the pop branch succeeds on slot 0. -/
theorem spec_c3_witness :
    (({ capacity := 2, ring := [{ turn := 1, data := some 5 }, { turn := 1, data := none }], head := 0, tail := 1 } : Fifo6State Nat)).tail < W ∧
    (({ capacity := 2, ring := [{ turn := 1, data := some 5 }, { turn := 1, data := none }], head := 0, tail := 1 } : Fifo6State Nat)).head < W ∧
    Fifo6.pushLoop 1 9 ({ capacity := 2, ring := [{ turn := 1, data := some 5 }, { turn := 1, data := none }], head := 0, tail := 1 } : Fifo6State Nat) =
      some (true, { capacity := 2, ring := [{ turn := 1, data := some 5 }, { turn := 2 % W, data := some 9 }], head := 0, tail := 2 % W }) := by
  refine ⟨by decide, by decide, ?_⟩
  have h := (spec_c3_turn_protocol Nat
    ({ capacity := 2, ring := [{ turn := 1, data := some 5 }, { turn := 1, data := none }], head := 0, tail := 1 } : Fifo6State Nat)
    9 0 (by decide) (by decide)).1 (by decide)
  exact h
